import Mathlib

/-!
Verification of the GAMBA bitwise-factory and parser sources against their
specification.  The Python sources `implicant.py`, `dnf.py` and `parse.py` are
shallowly embedded below: pure methods become Lean functions, the stateful
merge loop and the recursive-descent parser become explicit state passing with
a fuel argument, machine integers are `Nat`/`Int`, and fallible code returns
`Option`/`Except`.
-/

set_option maxHeartbeats 1000000
set_option linter.unusedVariables false

/-! ### Implicant (implicant.py) -/

/-- One ternary slot of an implicant vector: `some true` models the Python
entry `1` (the variable occurs unnegated), `some false` models `0` (negated),
and `none` models `None` (the variable has no influence). -/
abbrev Slot := Option Bool

/-- Embedding of class `Implicant` (implicant.py lines 8-18): the ternary
vector, the list of covered minterms, and the transient `obsolete` flag. -/
structure Implicant where
  vec : List Slot
  minterms : List Nat
  obsolete : Bool
  deriving Repr, DecidableEq

/-- Embedding of `Implicant.__init_vec` (implicant.py lines 22-27): the vector
is filled from the value's bits, least significant bit first (`value & 1`
appended, then `value >>= 1`). -/
def initVecGo : Nat → Nat → List Slot
  | 0, _ => []
  | n + 1, value => some ((value &&& 1) == 1) :: initVecGo n (value >>> 1)

/-- Embedding of `Implicant.__init__` (implicant.py lines 12-18) for a
non-negative value: minterm list `[value]`, vector derived from the value's
bits, `obsolete` clear. -/
def Implicant.ofValue (vnumber value : Nat) : Implicant :=
  { vec := initVecGo vnumber value, minterms := [value], obsolete := false }

/-- Embedding of `Implicant.__get_copy` (implicant.py lines 34-38): a fresh
implicant holding copies of the vector and of the minterm list; the copy's
`obsolete` flag is `False` (the fresh `Implicant(len, -1)` starts unflagged
and the flag is not copied over). -/
def Implicant.get_copy (a : Implicant) : Implicant :=
  { vec := a.vec, minterms := a.minterms, obsolete := false }

/-- Embedding of `Implicant.count_ones` (implicant.py lines 41-42):
`self.vec.count(1)`. -/
def Implicant.count_ones (a : Implicant) : Nat := a.vec.count (some true)

/-- Embedding of the difference scan inside `Implicant.try_merge`
(implicant.py lines 49-58): walk both vectors in step, remembering the first
differing index in the accumulator (`none` models the initial `diffIdx = -1`);
finding a second difference aborts with `none` (the Python `return None`),
otherwise `some acc` is produced when the loop finishes. -/
def scanDiff : List Slot → List Slot → Nat → Option Nat → Option (Option Nat)
  | [], _, _, acc => some acc
  | _ :: _, [], _, acc => some acc
  | a :: as, b :: bs, i, acc =>
    if a = b then scanDiff as bs (i + 1) acc
    else
      match acc with
      | some _ => none
      | none => scanDiff as bs (i + 1) (some i)

/-- Embedding of `Implicant.try_merge` (implicant.py lines 46-65).  The source
asserts equal vector lengths; the embedding is total (the scan stops at the
shorter vector) and every theorem about it assumes equal lengths. -/
def Implicant.try_merge (a b : Implicant) : Option Implicant :=
  match scanDiff a.vec b.vec 0 none with
  | none => none
  | some d =>
    let c := { a.get_copy with minterms := a.get_copy.minterms ++ b.minterms }
    match d with
    | none => some c
    | some i => some { c with vec := c.vec.set i none }

/-- Number of pairwise differing slots of two vectors (walking them in step,
exactly the positions the scan in `try_merge` counts). -/
def diffCount : List Slot → List Slot → Nat
  | a :: as, b :: bs => (if a = b then 0 else 1) + diffCount as bs
  | _, _ => 0

/-! #### Lemmas about the difference scan -/

theorem diffCount_eq_zero_iff : ∀ (as bs : List Slot), as.length = bs.length →
    (diffCount as bs = 0 ↔ as = bs) := by
  intro as
  induction as with
  | nil =>
    intro bs h
    cases bs with
    | nil => simp [diffCount]
    | cons b bs => simp at h
  | cons a as ih =>
    intro bs h
    cases bs with
    | nil => simp at h
    | cons b bs =>
      simp only [List.length_cons, Nat.succ.injEq] at h
      by_cases hab : a = b
      · subst hab
        simpa [diffCount] using ih bs h
      · simp [diffCount, hab]

theorem scanDiff_acc_some : ∀ (as bs : List Slot) (i j : Nat),
    as.length = bs.length →
    scanDiff as bs i (some j) = if as = bs then some (some j) else none := by
  intro as
  induction as with
  | nil =>
    intro bs i j h
    cases bs with
    | nil => simp [scanDiff]
    | cons b bs => simp at h
  | cons a as ih =>
    intro bs i j h
    cases bs with
    | nil => simp at h
    | cons b bs =>
      simp only [List.length_cons, Nat.succ.injEq] at h
      by_cases hab : a = b
      · subst hab
        rw [show scanDiff (a :: as) (a :: bs) i (some j)
            = scanDiff as bs (i + 1) (some j) by simp [scanDiff]]
        rw [ih bs (i + 1) j h]
        by_cases ht : as = bs
        · simp [ht]
        · simp [ht]
      · simp [scanDiff, hab]

theorem scanDiff_none_eq_iff : ∀ (as bs : List Slot) (i : Nat),
    as.length = bs.length →
    (scanDiff as bs i none = some none ↔ as = bs) := by
  intro as
  induction as with
  | nil =>
    intro bs i h
    cases bs with
    | nil => simp [scanDiff]
    | cons b bs => simp at h
  | cons a as ih =>
    intro bs i h
    cases bs with
    | nil => simp at h
    | cons b bs =>
      simp only [List.length_cons, Nat.succ.injEq] at h
      by_cases hab : a = b
      · subst hab
        rw [show scanDiff (a :: as) (a :: bs) i none
            = scanDiff as bs (i + 1) none by simp [scanDiff]]
        simpa using ih bs (i + 1) h
      · rw [show scanDiff (a :: as) (b :: bs) i none
            = scanDiff as bs (i + 1) (some i) by simp [scanDiff, hab]]
        rw [scanDiff_acc_some as bs (i + 1) i h]
        constructor
        · intro hc
          by_cases ht : as = bs
          · simp [ht] at hc
          · simp [ht] at hc
        · intro hc
          exact absurd (by injection hc) hab

theorem scanDiff_some_some : ∀ (as bs : List Slot) (i j : Nat),
    as.length = bs.length →
    scanDiff as bs i none = some (some j) →
    ∃ k, j = i + k ∧ k < as.length ∧
      as.getD k none ≠ bs.getD k none ∧
      ∀ l, l ≠ k → as.getD l none = bs.getD l none := by
  intro as
  induction as with
  | nil =>
    intro bs i j h hs
    cases bs with
    | nil => simp [scanDiff] at hs
    | cons b bs => simp at h
  | cons a as ih =>
    intro bs i j h hs
    cases bs with
    | nil => simp at h
    | cons b bs =>
      simp only [List.length_cons, Nat.succ.injEq] at h
      by_cases hab : a = b
      · subst hab
        rw [show scanDiff (a :: as) (a :: bs) i none
            = scanDiff as bs (i + 1) none by simp [scanDiff]] at hs
        obtain ⟨k, hk, hlt, hne, hagree⟩ := ih bs (i + 1) j h hs
        refine ⟨k + 1, by omega, by simpa using hlt, ?_, ?_⟩
        · simpa [List.getD_cons_succ] using hne
        · intro l hl
          cases l with
          | zero => simp [List.getD_cons_zero]
          | succ l =>
            simp only [List.getD_cons_succ]
            exact hagree l (by omega)
      · rw [show scanDiff (a :: as) (b :: bs) i none
            = scanDiff as bs (i + 1) (some i) by simp [scanDiff, hab]] at hs
        rw [scanDiff_acc_some as bs (i + 1) i h] at hs
        by_cases ht : as = bs
        · rw [if_pos ht] at hs
          have hij : i = j := by
            have := Option.some.inj hs
            exact Option.some.inj this
          refine ⟨0, by omega, by simp, by simpa [List.getD_cons_zero] using hab, ?_⟩
          intro l hl
          cases l with
          | zero => exact absurd rfl hl
          | succ l => simp [List.getD_cons_succ, ht]
        · rw [if_neg ht] at hs
          exact absurd hs (by simp)

theorem scanDiff_isSome_iff : ∀ (as bs : List Slot) (i : Nat),
    as.length = bs.length →
    ((scanDiff as bs i none).isSome ↔ diffCount as bs ≤ 1) := by
  intro as
  induction as with
  | nil =>
    intro bs i h
    cases bs with
    | nil => simp [scanDiff, diffCount]
    | cons b bs => simp at h
  | cons a as ih =>
    intro bs i h
    cases bs with
    | nil => simp at h
    | cons b bs =>
      simp only [List.length_cons, Nat.succ.injEq] at h
      by_cases hab : a = b
      · subst hab
        rw [show scanDiff (a :: as) (a :: bs) i none
            = scanDiff as bs (i + 1) none by simp [scanDiff]]
        simpa [diffCount] using ih bs (i + 1) h
      · rw [show scanDiff (a :: as) (b :: bs) i none
            = scanDiff as bs (i + 1) (some i) by simp [scanDiff, hab]]
        rw [scanDiff_acc_some as bs (i + 1) i h]
        simp only [diffCount, if_neg hab]
        by_cases ht : as = bs
        · subst ht
          have h0 : diffCount as as = 0 := (diffCount_eq_zero_iff as as rfl).mpr rfl
          simp [h0]
        · have hdz : diffCount as bs ≠ 0 := fun hc =>
            ht ((diffCount_eq_zero_iff as bs h).mp hc)

          simp only [if_neg ht, Option.isSome_none, Bool.false_eq_true, false_iff]
          omega

theorem try_merge_isSome_iff_diffCount (a b : Implicant)
    (h : a.vec.length = b.vec.length) :
    (a.try_merge b).isSome ↔ diffCount a.vec b.vec ≤ 1 := by
  unfold Implicant.try_merge
  rcases hs : scanDiff a.vec b.vec 0 none with _ | d
  · have := scanDiff_isSome_iff a.vec b.vec 0 h
    simp only [hs, Option.isSome_none, Bool.false_eq_true, false_iff] at this
    simp only [Option.isSome_none, Bool.false_eq_true, false_iff]
    omega
  · have := scanDiff_isSome_iff a.vec b.vec 0 h
    simp only [hs, Option.isSome_some, true_iff] at this
    cases d <;> simp [this]

theorem try_merge_some_char (a b : Implicant) (c : Implicant)
    (h : a.vec.length = b.vec.length)
    (hm : a.try_merge b = some c) :
    c.minterms = a.minterms ++ b.minterms ∧ c.obsolete = false ∧
    ((a.vec = b.vec ∧ c.vec = a.vec) ∨
      (∃ j, j < a.vec.length ∧ a.vec.getD j none ≠ b.vec.getD j none ∧
        (∀ l, l ≠ j → a.vec.getD l none = b.vec.getD l none) ∧
        c.vec = a.vec.set j none)) := by
  unfold Implicant.try_merge at hm
  rcases hs : scanDiff a.vec b.vec 0 none with _ | d
  · simp [hs] at hm
  · rw [hs] at hm
    cases d with
    | none =>
      simp only [Option.some.injEq] at hm
      have heq : a.vec = b.vec := (scanDiff_none_eq_iff a.vec b.vec 0 h).mp hs
      refine ⟨?_, ?_, Or.inl ⟨heq, ?_⟩⟩ <;> simp [← hm, Implicant.get_copy]
    | some j =>
      simp only [Option.some.injEq] at hm
      obtain ⟨k, hk, hlt, hne, hagree⟩ := scanDiff_some_some a.vec b.vec 0 j h hs
      have hkj : j = k := by omega
      subst hkj
      refine ⟨?_, ?_, Or.inr ⟨j, hlt, hne, hagree, ?_⟩⟩ <;>
        simp [← hm, Implicant.get_copy]

/-! #### Claim C2 -/

/-- C2 counterexample: the claim asserts that `try_merge` succeeds only when
the vectors differ in exactly one slot that is fully assigned in both, and
that a difference count of 0, or a mismatch involving a don't-care slot,
yields no merge.  The code merges two implicants with identical vectors
(difference count 0), and also merges across a don't-care mismatch. -/
theorem claim_C2_counterexample :
    Implicant.try_merge ⟨[some true], [1], false⟩ ⟨[some true], [1], false⟩
      = some ⟨[some true], [1, 1], false⟩ ∧
    Implicant.try_merge ⟨[none], [0, 1], false⟩ ⟨[some true], [1], false⟩
      = some ⟨[none], [0, 1, 1], false⟩ :=
  ⟨rfl, rfl⟩

/-- C2 (amended): for implicants with equal-length vectors, `try_merge`
succeeds iff the vectors differ in at most one slot (difference count 0 or 1,
with no requirement that the differing slot be fully assigned); on success the
merged implicant's minterm set is the union of the operands' minterm sets and
its vector is the first operand's vector with the differing slot, if any, set
to don't-care. -/
theorem claim_C2 (a b : Implicant) (h : a.vec.length = b.vec.length) :
    ((a.try_merge b).isSome ↔ diffCount a.vec b.vec ≤ 1) ∧
    (∀ c, a.try_merge b = some c →
      c.minterms.toFinset = a.minterms.toFinset ∪ b.minterms.toFinset ∧
      c.obsolete = false ∧
      ((a.vec = b.vec ∧ c.vec = a.vec) ∨
        (∃ j, j < a.vec.length ∧ a.vec.getD j none ≠ b.vec.getD j none ∧
          (∀ l, l ≠ j → a.vec.getD l none = b.vec.getD l none) ∧
          c.vec = a.vec.set j none))) := by
  refine ⟨try_merge_isSome_iff_diffCount a b h, ?_⟩
  intro c hc
  obtain ⟨hmt, hob, hcase⟩ := try_merge_some_char a b c h hc
  exact ⟨by simp [hmt], hob, hcase⟩

/-- Concrete first operand for the C2 witness. -/
def c2a : Implicant := ⟨[some true, some false], [1], false⟩

/-- Concrete second operand for the C2 witness. -/
def c2b : Implicant := ⟨[some true, some true], [3], false⟩

/-- C2 witness input: two equal-length vectors differing in exactly one fully
assigned slot. -/
theorem claim_C2_witness :
    c2a.vec.length = c2b.vec.length ∧
    (((c2a.try_merge c2b).isSome ↔ diffCount c2a.vec c2b.vec ≤ 1) ∧
    (∀ c, c2a.try_merge c2b = some c →
      c.minterms.toFinset = c2a.minterms.toFinset ∪ c2b.minterms.toFinset ∧
      c.obsolete = false ∧
      ((c2a.vec = c2b.vec ∧ c.vec = c2a.vec) ∨
        (∃ j, j < c2a.vec.length ∧ c2a.vec.getD j none ≠ c2b.vec.getD j none ∧
          (∀ l, l ≠ j → c2a.vec.getD l none = c2b.vec.getD l none) ∧
          c.vec = c2a.vec.set j none)))) :=
  ⟨by decide, claim_C2 c2a c2b (by decide)⟩

/-! ### Heap-level model of `__get_copy` and `try_merge` (claim C10)

A frame property about mutation and aliasing needs an explicit heap: Python
list objects (slot vectors and minterm lists) and `Implicant` objects
(attribute records) are modelled as cells addressed by their index in an
allocation list, so that in-place updates and attribute rebinding are visible
as store updates. -/

/-- Attribute record of one Python `Implicant` object: references to its list
cells plus the inline `obsolete` flag. -/
structure ImplObj where
  vecId : Nat
  mintId : Nat
  obsolete : Bool
  deriving Repr, DecidableEq, Inhabited

/-- The store: slot-vector list cells, minterm list cells, and implicant
objects, each addressed by allocation index. -/
structure Store where
  vecs : List (List Slot)
  mints : List (List Nat)
  impls : List ImplObj
  deriving Repr, DecidableEq

/-- Allocate a slot-vector cell; returns the new store and the cell's index. -/
def Store.allocVec (st : Store) (v : List Slot) : Store × Nat :=
  ({ st with vecs := st.vecs ++ [v] }, st.vecs.length)

/-- Allocate a minterm-list cell. -/
def Store.allocMint (st : Store) (m : List Nat) : Store × Nat :=
  ({ st with mints := st.mints ++ [m] }, st.mints.length)

/-- Allocate an implicant object. -/
def Store.allocImpl (st : Store) (o : ImplObj) : Store × Nat :=
  ({ st with impls := st.impls ++ [o] }, st.impls.length)

/-- Overwrite one attribute record (attribute assignment on an object). -/
def Store.setImpl (st : Store) (i : Nat) (o : ImplObj) : Store :=
  { st with impls := st.impls.set i o }

/-- Heap-level embedding of `Implicant.__get_copy` (implicant.py lines 34-38):
`Implicant(len(self.vec), -1)` allocates an object with two fresh empty list
cells; `cpy.vec = list(self.vec)` and `cpy.minterms = list(self.minterms)`
each allocate a fresh copy of the operand's cell and rebind the attribute. -/
def get_copy_h (st : Store) (selfId : Nat) : Store × Nat :=
  let s1v := st.allocVec []
  let s2m := s1v.1.allocMint []
  let s3i := s2m.1.allocImpl { vecId := s1v.2, mintId := s2m.2, obsolete := false }
  let st3 := s3i.1
  let cpyId := s3i.2
  let selfObj := st3.impls.getD selfId default
  let s4v := st3.allocVec (st3.vecs.getD selfObj.vecId [])
  let st5 := s4v.1.setImpl cpyId { s4v.1.impls.getD cpyId default with vecId := s4v.2 }
  let s6m := st5.allocMint (st5.mints.getD selfObj.mintId [])
  let st7 := s6m.1.setImpl cpyId { s6m.1.impls.getD cpyId default with mintId := s6m.2 }
  (st7, cpyId)

/-- Heap-level embedding of `Implicant.try_merge` (implicant.py lines 46-65):
the scan reads the two vector cells; on success a copy is made, the copy's
minterm cell is extended in place (`newImpl.minterms += other.minterms`), and
its vector cell has the differing slot overwritten (`newImpl.vec[diffIdx] =
None`). -/
def try_merge_h (st : Store) (selfId otherId : Nat) : Store × Option Nat :=
  let sv := st.vecs.getD (st.impls.getD selfId default).vecId []
  let ov := st.vecs.getD (st.impls.getD otherId default).vecId []
  match scanDiff sv ov 0 none with
  | none => (st, none)
  | some d =>
    let cp := get_copy_h st selfId
    let st1 := cp.1
    let newId := cp.2
    let newObj := st1.impls.getD newId default
    let otherMt := st1.mints.getD (st1.impls.getD otherId default).mintId []
    let st2 := { st1 with
      mints := st1.mints.set newObj.mintId
        (st1.mints.getD newObj.mintId [] ++ otherMt) }
    match d with
    | none => (st2, some newId)
    | some i =>
      let no := st2.impls.getD newId default
      let st3 := { st2 with
        vecs := st2.vecs.set no.vecId ((st2.vecs.getD no.vecId []).set i none) }
      (st3, some newId)

/-! #### List helper lemmas for store reasoning -/

theorem set_append_singleton {α : Type} (l : List α) (a b : α) :
    (l ++ [a]).set l.length b = l ++ [b] := by
  induction l with
  | nil => rfl
  | cons x xs ih => simpa [List.set] using ih

theorem getD_set_ne {α : Type} (l : List α) (i j : Nat) (x d : α) (h : j ≠ i) :
    (l.set i x).getD j d = l.getD j d := by
  induction l generalizing i j with
  | nil => simp
  | cons y ys ih =>
    cases i with
    | zero =>
      cases j with
      | zero => exact absurd rfl h
      | succ j => simp [List.getD_cons_succ]
    | succ i =>
      cases j with
      | zero => simp [List.getD_cons_zero]
      | succ j => simpa [List.set, List.getD_cons_succ] using ih i j (by omega)

theorem getD_set_self {α : Type} (l : List α) (i : Nat) (x d : α)
    (h : i < l.length) :
    (l.set i x).getD i d = x := by
  induction l generalizing i with
  | nil => simp at h
  | cons y ys ih =>
    cases i with
    | zero => rfl
    | succ i => simpa [List.set, List.getD_cons_succ] using ih i (by simpa using h)

/-! #### Claim C10: the frame property of `try_merge` -/

/-- Closed form of the copy constructor's effect on the store: three fresh
cells are allocated (an empty vector, an empty minterm list, both immediately
replaced by fresh copies of the operand's cells) and one fresh object pointing
at the two copies. -/
theorem get_copy_h_eq (st : Store) (selfId : Nat)
    (hs : selfId < st.impls.length)
    (hsv : (st.impls.getD selfId default).vecId < st.vecs.length)
    (hsm : (st.impls.getD selfId default).mintId < st.mints.length) :
    get_copy_h st selfId =
      ({ vecs := st.vecs ++
            [[], st.vecs.getD (st.impls.getD selfId default).vecId []],
         mints := st.mints ++
            [[], st.mints.getD (st.impls.getD selfId default).mintId []],
         impls := st.impls ++
            [(⟨st.vecs.length + 1, st.mints.length + 1, false⟩ : ImplObj)] },
       st.impls.length) := by
  unfold get_copy_h Store.allocVec Store.allocMint Store.allocImpl Store.setImpl
  simp only
  rw [List.getD_append _ _ _ _ hs]
  rw [List.getD_append _ _ _ _ hsv]
  rw [List.getD_append_right _ _ _ _ (Nat.le_refl _)]
  simp only [Nat.sub_self, List.getD_cons_zero, set_append_singleton]
  rw [List.getD_append _ _ _ _ hsm]
  rw [List.getD_append_right _ _ _ _ (Nat.le_refl _)]
  simp only [Nat.sub_self, List.getD_cons_zero, set_append_singleton]
  simp

/-- C10: at the heap level, `try_merge` leaves both operands entirely
unchanged — their attribute records (vector reference, minterm reference,
`obsolete` flag) and the contents of their vector and minterm cells are
identical before and after the call, whether or not a merge result is
produced — and any produced result is a freshly allocated object whose vector
and minterm cells are likewise freshly allocated, so it shares no mutable
structure with the operands. -/
theorem claim_C10 (st : Store) (selfId otherId : Nat)
    (hs : selfId < st.impls.length) (ho : otherId < st.impls.length)
    (hsv : (st.impls.getD selfId default).vecId < st.vecs.length)
    (hsm : (st.impls.getD selfId default).mintId < st.mints.length)
    (hov : (st.impls.getD otherId default).vecId < st.vecs.length)
    (hom : (st.impls.getD otherId default).mintId < st.mints.length) :
    ((try_merge_h st selfId otherId).1.impls.getD selfId default
        = st.impls.getD selfId default ∧
      (try_merge_h st selfId otherId).1.impls.getD otherId default
        = st.impls.getD otherId default) ∧
    ((try_merge_h st selfId otherId).1.vecs.getD
          (st.impls.getD selfId default).vecId []
        = st.vecs.getD (st.impls.getD selfId default).vecId [] ∧
      (try_merge_h st selfId otherId).1.vecs.getD
          (st.impls.getD otherId default).vecId []
        = st.vecs.getD (st.impls.getD otherId default).vecId [] ∧
      (try_merge_h st selfId otherId).1.mints.getD
          (st.impls.getD selfId default).mintId []
        = st.mints.getD (st.impls.getD selfId default).mintId [] ∧
      (try_merge_h st selfId otherId).1.mints.getD
          (st.impls.getD otherId default).mintId []
        = st.mints.getD (st.impls.getD otherId default).mintId []) ∧
    (∀ nid, (try_merge_h st selfId otherId).2 = some nid →
      st.impls.length ≤ nid ∧
      st.vecs.length
        ≤ ((try_merge_h st selfId otherId).1.impls.getD nid default).vecId ∧
      st.mints.length
        ≤ ((try_merge_h st selfId otherId).1.impls.getD nid default).mintId) := by
  unfold try_merge_h
  dsimp only
  rcases hd : scanDiff (st.vecs.getD (st.impls.getD selfId default).vecId [])
      (st.vecs.getD (st.impls.getD otherId default).vecId []) 0 none with _ | d
  · simp
  · simp only [get_copy_h_eq st selfId hs hsv hsm]
    have hVapp : ∀ z : List Slot, ∀ i, i < st.vecs.length →
        (st.vecs ++ [[], z]).getD i ([] : List Slot) = st.vecs.getD i [] := by
      intro z i hi; exact List.getD_append _ _ _ _ hi
    have hMapp : ∀ z : List Nat, ∀ i, i < st.mints.length →
        (st.mints ++ [[], z]).getD i ([] : List Nat) = st.mints.getD i [] := by
      intro z i hi; exact List.getD_append _ _ _ _ hi
    have hIapp : ∀ o : ImplObj, ∀ i, i < st.impls.length →
        (st.impls ++ [o]).getD i default = st.impls.getD i default := by
      intro o i hi; exact List.getD_append _ _ _ _ hi
    have hInew : ∀ o : ImplObj,
        (st.impls ++ [o]).getD st.impls.length default = o := by
      intro o
      rw [List.getD_append_right _ _ _ _ (Nat.le_refl _)]
      simp
    simp only [hIapp _ _ ho, hInew]
    have hMnew : ∀ y z : List Nat,
        (st.mints ++ [y, z]).getD (st.mints.length + 1) ([] : List Nat) = z := by
      intro y z
      rw [List.getD_append_right _ _ _ _ (by omega)]
      simp [Nat.sub_self, Nat.succ_sub]
    have hMset : ∀ y z w : List Nat,
        (st.mints ++ [y, z]).set (st.mints.length + 1) w = st.mints ++ [y, w] := by
      intro y z w
      have : st.mints ++ [y, z] = (st.mints ++ [y]) ++ [z] := by simp
      rw [this, show st.mints.length + 1 = (st.mints ++ [y]).length by simp,
        set_append_singleton]
      simp
    have hVset : ∀ y z w : List Slot,
        (st.vecs ++ [y, z]).set (st.vecs.length + 1) w = st.vecs ++ [y, w] := by
      intro y z w
      have : st.vecs ++ [y, z] = (st.vecs ++ [y]) ++ [z] := by simp
      rw [this, show st.vecs.length + 1 = (st.vecs ++ [y]).length by simp,
        set_append_singleton]
      simp
    have hVnew : ∀ y z : List Slot,
        (st.vecs ++ [y, z]).getD (st.vecs.length + 1) ([] : List Slot) = z := by
      intro y z
      rw [List.getD_append_right _ _ _ _ (by omega)]
      rw [show st.vecs.length + 1 - st.vecs.length = 1 by omega]
      simp
    simp only [hMapp _ _ hom, hMnew, hMset]
    cases d with
    | none =>
      simp only
      refine ⟨⟨hIapp _ _ hs, hIapp _ _ ho⟩, ⟨?_, ?_, ?_, ?_⟩, ?_⟩
      · exact hVapp _ _ hsv
      · exact hVapp _ _ hov
      · exact hMapp _ _ hsm
      · exact hMapp _ _ hom
      · intro nid hnid
        obtain rfl : st.impls.length = nid := Option.some.inj hnid
        simp [hInew]
    | some i =>
      simp only [hVnew, hVset]
      refine ⟨⟨hIapp _ _ hs, hIapp _ _ ho⟩, ⟨?_, ?_, ?_, ?_⟩, ?_⟩
      · exact hVapp _ _ hsv
      · exact hVapp _ _ hov
      · exact hMapp _ _ hsm
      · exact hMapp _ _ hom
      · intro nid hnid
        obtain rfl : st.impls.length = nid := Option.some.inj hnid
        simp [hInew]

/-- A concrete well-formed two-implicant store for the C10 witness. -/
def c10store : Store :=
  { vecs := [[some true], [some false]],
    mints := [[1], [0]],
    impls := [⟨0, 0, false⟩, ⟨1, 1, false⟩] }

/-- C10 witness input: a store holding two valid one-variable implicants at
object indices 0 and 1. -/
theorem claim_C10_witness :
    (0 < c10store.impls.length ∧ 1 < c10store.impls.length ∧
      (c10store.impls.getD 0 default).vecId < c10store.vecs.length ∧
      (c10store.impls.getD 0 default).mintId < c10store.mints.length ∧
      (c10store.impls.getD 1 default).vecId < c10store.vecs.length ∧
      (c10store.impls.getD 1 default).mintId < c10store.mints.length) ∧
    (((try_merge_h c10store 0 1).1.impls.getD 0 default
        = c10store.impls.getD 0 default ∧
      (try_merge_h c10store 0 1).1.impls.getD 1 default
        = c10store.impls.getD 1 default) ∧
    ((try_merge_h c10store 0 1).1.vecs.getD
          (c10store.impls.getD 0 default).vecId []
        = c10store.vecs.getD (c10store.impls.getD 0 default).vecId [] ∧
      (try_merge_h c10store 0 1).1.vecs.getD
          (c10store.impls.getD 1 default).vecId []
        = c10store.vecs.getD (c10store.impls.getD 1 default).vecId [] ∧
      (try_merge_h c10store 0 1).1.mints.getD
          (c10store.impls.getD 0 default).mintId []
        = c10store.mints.getD (c10store.impls.getD 0 default).mintId [] ∧
      (try_merge_h c10store 0 1).1.mints.getD
          (c10store.impls.getD 1 default).mintId []
        = c10store.mints.getD (c10store.impls.getD 1 default).mintId []) ∧
    (∀ nid, (try_merge_h c10store 0 1).2 = some nid →
      c10store.impls.length ≤ nid ∧
      c10store.vecs.length
        ≤ ((try_merge_h c10store 0 1).1.impls.getD nid default).vecId ∧
      c10store.mints.length
        ≤ ((try_merge_h c10store 0 1).1.impls.getD nid default).mintId)) :=
  ⟨⟨by decide, by decide, by decide, by decide, by decide, by decide⟩,
    claim_C10 c10store 0 1 (by decide) (by decide) (by decide) (by decide)
      (by decide) (by decide)⟩

/-! ### DNF minimizer (dnf.py) -/

/-- Embedding of `popcount` (dnf.py lines 10-13): number of ones in the binary
representation (the gmpy2 / `bit_count` / string-count variants all compute
this same function; the spec calls the choice a pure optimization). -/
def popcount (x : Nat) : Nat :=
  if h : x = 0 then 0 else popcount (x >>> 1) + (x &&& 1)
decreasing_by
  rw [Nat.shiftRight_one]
  exact Nat.div_lt_self (Nat.pos_of_ne_zero h) one_lt_two

/-- Appending an implicant to the bucket with the given index
(`groups[k].append(impl)`).  An out-of-range index would raise in Python and
never occurs along the verified runs; `List.set` leaves the list unchanged
there. -/
def bucketAdd (gs : List (List Implicant)) (k : Nat) (a : Implicant) :
    List (List Implicant) :=
  gs.set k (gs.getD k [] ++ [a])

/-- Embedding of `Dnf.__init_groups` (dnf.py lines 33-44): one bucket per
possible ones-count; every index with truth-vector entry 1 contributes an
initial implicant in the bucket of its popcount.  The source asserts that the
entries are 0 or 1 and skips the 0 entries; the theorems assume 0/1 entries. -/
def init_groups (vnumber : Nat) (vec : List Nat) : List (List Implicant) :=
  (List.range vec.length).foldl
    (fun gs i =>
      if vec.getD i 0 = 0 then gs
      else bucketAdd gs (popcount i) (Implicant.ofValue vnumber i))
    (List.replicate (vnumber + 1) [])

/-- Implicants produced by merging a bucket against the next bucket, in the
source's traversal order (`impl1` outer, `impl2` inner; dnf.py lines 60-70). -/
def mergedOf (g ng : List Implicant) : List Implicant :=
  g.flatMap fun a => ng.filterMap fun b => a.try_merge b

/-- Mark the `impl1` side of a bucket pair: an implicant of the lower bucket
becomes obsolete exactly when some partner of the next bucket merges with it
(`impl1.obsolete = True`, dnf.py line 67); `try_merge` never reads the flag,
so the in-place flag writes of the source commute with the pair loop. -/
def markLeft (g ng : List Implicant) : List Implicant :=
  g.map fun a =>
    if ng.any (fun b => (a.try_merge b).isSome) then { a with obsolete := true }
    else a

/-- Mark the `impl2` side of a bucket pair (`impl2.obsolete = True`,
dnf.py line 68). -/
def markRight (g ng : List Implicant) : List Implicant :=
  ng.map fun b =>
    if g.any (fun a => (a.try_merge b).isSome) then { b with obsolete := true }
    else b

/-- Embedding of the bucket loop of `Dnf.__merge_step` (dnf.py lines 54-75):
walk the buckets in order; for each bucket merge against the next one,
flagging merged implicants on both sides and adding each merged implicant to
the fresh bucket of its ones-count, then append the unflagged implicants of
the current bucket to the prime list.  The head of the remaining bucket list
carries the flags it received as the `impl2` side of the previous step. -/
def merge_step_go :
    List Implicant → List (List Implicant) → List (List Implicant) →
    List Implicant → Bool →
    List (List Implicant) × List Implicant × Bool
  | g, [], ng, ps, c => (ng, ps ++ g.filter (fun a => !a.obsolete), c)
  | g, g2 :: rest, ng, ps, c =>
    let ms := mergedOf g g2
    merge_step_go (markRight g g2) rest
      (ms.foldl (fun bs m => bucketAdd bs m.count_ones m) ng)
      (ps ++ (markLeft g g2).filter (fun a => !a.obsolete))
      (c || !ms.isEmpty)

/-- Embedding of `Dnf.__merge_step` (dnf.py lines 50-77): fresh empty bucket
set (`newGroups = [[] for g in self.__groups]`), `changed` initially false;
an empty bucket list loops over no buckets. -/
def merge_step (gs : List (List Implicant)) (ps : List Implicant) :
    List (List Implicant) × List Implicant × Bool :=
  match gs with
  | [] => (gs.map fun _ => [], ps, false)
  | g :: rest => merge_step_go g rest (gs.map fun _ => []) ps false

/-- Embedding of the loop of `Dnf.__merge` (dnf.py lines 80-85) with an
explicit fuel bound on the number of rounds; a round that produces no merges
returns.  The termination theorem shows that fuel `vnumber + 1` always
suffices on valid inputs. -/
def merge_loop :
    Nat → List (List Implicant) × List Implicant →
    List (List Implicant) × List Implicant
  | 0, s => s
  | f + 1, s =>
    let t := merge_step s.1 s.2
    if t.2.2 then merge_loop f (t.1, t.2.1) else (t.1, t.2.1)

/-- Number of `merge_step` calls the fuelled loop performs. -/
def merge_rounds : Nat → List (List Implicant) × List Implicant → Nat
  | 0, _ => 0
  | f + 1, s =>
    let t := merge_step s.1 s.2
    if t.2.2 then merge_rounds f (t.1, t.2.1) + 1 else 1

/-- Embedding of the initial requirement set of
`Dnf.__drop_unrequired_implicants` (dnf.py line 89): all indices whose truth
vector entry is 1, as a finite set (the Python `set`). -/
def requSet (vec : List Nat) : Finset Nat :=
  ((List.range vec.length).filter (fun i => vec.getD i 0 = 1)).toFinset

/-- Minterm list of an implicant as a finite set (`set(impl.minterms)`). -/
def mintermFinset (a : Implicant) : Finset Nat := a.minterms.toFinset

/-- Embedding of the while loop of `Dnf.__drop_unrequired_implicants`
(dnf.py lines 91-102) threading the index `i`, the prime list (mutated by
`del`), and the requirement set.  Each iteration either advances `i` or
shortens the list, so `primes.length - i` bounds the iterations and the fuel
runs out exactly when the loop condition fails. -/
def dropLoopF : Nat → List Implicant → Finset Nat → Nat → List Implicant
  | 0, ps, _, _ => ps
  | f + 1, ps, requ, i =>
    if h : i < ps.length then
      if (mintermFinset ps[i] ∩ requ).Nonempty then
        dropLoopF f ps (requ \ mintermFinset ps[i]) (i + 1)
      else dropLoopF f (ps.eraseIdx i) requ i
    else ps

/-- Embedding of `Dnf.__drop_unrequired_implicants` (dnf.py lines 88-102). -/
def drop_unrequired (ps : List Implicant) (requ : Finset Nat) :
    List Implicant :=
  dropLoopF ps.length ps requ 0

/-- Embedding of `Dnf.__init__` (dnf.py lines 21-27): build the groups, run
the merge loop (with the fuel shown sufficient by the termination theorem),
then prune; the result is the surviving `primes` list. -/
def dnfPrimes (vnumber : Nat) (vec : List Nat) : List Implicant :=
  let s := merge_loop (vnumber + 1) (init_groups vnumber vec, [])
  drop_unrequired s.2 (requSet vec)

/-! ### Semantics of an implicant's conjunction

`Implicant.get` and `Implicant.to_bitwise` (implicant.py lines 68-96) render
the conjunction of `x_i` for every `1` slot and `~x_i` for every `0` slot,
skipping don't-care slots (the empty conjunction renders as constant true).
Evaluating that conjunction at the assignment encoded by a minterm `m`
(bit `i` of `m` is the value of variable `i`) gives the following function. -/

/-- Truth value of the conjunction described by a slot vector at the
assignment encoded by `m` (least significant bit = variable 0): a `some b`
slot requires bit `b`, a don't-care slot is skipped. -/
def evalVec : List Slot → Nat → Bool
  | [], _ => true
  | s :: rest, m =>
    (match s with
     | none => true
     | some b => ((m &&& 1) == 1) == b) && evalVec rest (m >>> 1)

/-- Number of don't-care slots of a vector. -/
def noneCount (v : List Slot) : Nat := v.count none

/-- Union of the minterm sets of a list of implicants. -/
def coverList (ps : List Implicant) : Finset Nat :=
  ps.foldr (fun a s => mintermFinset a ∪ s) ∅

/-- Union of the minterm sets over a bucket list. -/
def coverGroups (gs : List (List Implicant)) : Finset Nat :=
  gs.foldr (fun g s => coverList g ∪ s) ∅

/-! ### Claim C8: the pruning pass -/

/-- The pruning scan as the spec describes it: walk the accumulated primes in
discovery order; keep a prime iff its minterm set intersects the outstanding
requirement set, removing its covered minterms from that set; otherwise drop
it.  This definition follows the spec's words and is proved equal to the
source's index-and-delete loop `drop_unrequired`. -/
def pruneScan : List Implicant → Finset Nat → List Implicant
  | [], _ => []
  | p :: rest, requ =>
    if (mintermFinset p ∩ requ).Nonempty then
      p :: pruneScan rest (requ \ mintermFinset p)
    else pruneScan rest requ

theorem pruneScan_sublist :
    ∀ (ps : List Implicant) (requ : Finset Nat),
      List.Sublist (pruneScan ps requ) ps := by
  intro ps
  induction ps with
  | nil => intro requ; simp [pruneScan]
  | cons p rest ih =>
    intro requ
    by_cases hp : (mintermFinset p ∩ requ).Nonempty
    · simpa [pruneScan, hp] using List.Sublist.cons₂ p (ih (requ \ mintermFinset p))
    · simpa [pruneScan, hp] using List.Sublist.cons p (ih requ)

theorem dropLoopF_eq :
    ∀ (f : Nat) (ps : List Implicant) (requ : Finset Nat) (i : Nat),
      ps.length - i ≤ f →
      dropLoopF f ps requ i = ps.take i ++ pruneScan (ps.drop i) requ := by
  intro f
  induction f with
  | zero =>
    intro ps requ i hf
    have hi : ps.length ≤ i := by omega
    simp [dropLoopF, List.take_of_length_le hi, List.drop_of_length_le hi, pruneScan]
  | succ f ih =>
    intro ps requ i hf
    by_cases h : i < ps.length
    · have hdrop : ps.drop i = ps[i] :: ps.drop (i + 1) :=
        List.drop_eq_getElem_cons h
      have htake : ps.take (i + 1) = ps.take i ++ [ps[i]] := by
        simpa using (List.take_concat_get' ps i h).symm
      simp only [dropLoopF]
      rw [dif_pos h]
      by_cases hp : (mintermFinset ps[i] ∩ requ).Nonempty
      · rw [if_pos hp, ih ps (requ \ mintermFinset ps[i]) (i + 1) (by omega),
          hdrop]
        have hps : pruneScan (ps[i] :: List.drop (i + 1) ps) requ
            = ps[i] :: pruneScan (List.drop (i + 1) ps)
                (requ \ mintermFinset ps[i]) := by
          simp [pruneScan, hp]
        rw [hps, htake, List.append_assoc]
        rfl
      · rw [if_neg hp]
        have hlen : (ps.eraseIdx i).length - i ≤ f := by
          rw [List.length_eraseIdx_of_lt h]
          omega
        rw [ih (ps.eraseIdx i) requ i hlen, List.eraseIdx_eq_take_drop_succ]
        have htk : (ps.take i).length = i := by
          simp [List.length_take]
          omega
        rw [List.take_left' htk, List.drop_left' htk, hdrop]
        simp [pruneScan, hp]
    · have hi : ps.length ≤ i := by omega
      simp [dropLoopF, h, List.take_of_length_le hi, List.drop_of_length_le hi,
        pruneScan]

/-- C8: the source's pruning loop scans the accumulated primes in discovery
order starting from the given requirement set; a prime is kept iff its
minterm set intersects the outstanding requirement set at the moment it is
examined (in which case its minterms are removed from that set) and is
discarded otherwise, and the surviving primes form a sublist of the input
(no reordering, no other removals). -/
theorem claim_C8 (ps : List Implicant) (requ : Finset Nat) :
    drop_unrequired ps requ = pruneScan ps requ ∧
    List.Sublist (pruneScan ps requ) ps ∧
    (∀ p rest, pruneScan (p :: rest) requ =
      if (mintermFinset p ∩ requ).Nonempty then
        p :: pruneScan rest (requ \ mintermFinset p)
      else pruneScan rest requ) := by
  refine ⟨?_, pruneScan_sublist ps requ, ?_⟩
  · unfold drop_unrequired
    simpa using dropLoopF_eq ps.length ps requ 0 (by omega)
  · intro p rest
    simp [pruneScan]

/-! ### Helper lemmas for the merge-loop invariants -/

theorem list_ext_getD {α : Type} (d : α) :
    ∀ (as bs : List α), as.length = bs.length →
      (∀ l, as.getD l d = bs.getD l d) → as = bs := by
  intro as
  induction as with
  | nil =>
    intro bs h _
    cases bs with
    | nil => rfl
    | cons b bs => simp at h
  | cons a as ih =>
    intro bs h hag
    cases bs with
    | nil => simp at h
    | cons b bs =>
      simp only [List.length_cons, Nat.succ.injEq] at h
      have h0 := hag 0
      simp only [List.getD_cons_zero] at h0
      subst h0
      have : as = bs := ih bs h (fun l => by simpa [List.getD_cons_succ] using hag (l + 1))
      rw [this]

theorem count_set_add :
    ∀ (l : List Slot) (j : Nat) (x y d : Slot), j < l.length →
      (l.set j y).count x + (if l.getD j d = x then 1 else 0)
        = l.count x + (if y = x then 1 else 0) := by
  intro l
  induction l with
  | nil => intro j x y d h; simp at h
  | cons a as ih =>
    intro j x y d h
    cases j with
    | zero =>
      simp only [List.set, List.getD_cons_zero, List.count_cons, beq_iff_eq]
      by_cases hya : y = x <;> by_cases hax : a = x <;> simp [hya, hax] <;> omega
    | succ j =>
      have hlt : j < as.length := by simpa using h
      have hrec := ih j x y d hlt
      simp only [List.set, List.getD_cons_succ, List.count_cons, beq_iff_eq]
      by_cases hax : a = x <;> simp [hax] <;>
        by_cases hgx : as.getD j d = x <;> by_cases hyx : y = x <;>
          simp [hgx, hyx] at hrec ⊢ <;> omega

theorem eq_set_of_agree {α : Type} (d : α) (as bs : List α) (j : Nat)
    (hlen : as.length = bs.length) (hj : j < as.length)
    (hag : ∀ l, l ≠ j → as.getD l d = bs.getD l d) :
    bs = as.set j (bs.getD j d) := by
  apply list_ext_getD d
  · simp [hlen]
  · intro l
    by_cases hlj : l = j
    · subst hlj
      rw [getD_set_self _ _ _ _ hj]
    · rw [getD_set_ne _ _ _ _ _ hlj]
      exact (hag l hlj).symm

theorem initVecGo_length : ∀ (v value : Nat), (initVecGo v value).length = v := by
  intro v
  induction v with
  | zero => intro value; rfl
  | succ v ih => intro value; simp [initVecGo, ih]

theorem noneCount_initVecGo : ∀ (v value : Nat),
    (initVecGo v value).count (none : Slot) = 0 := by
  intro v
  induction v with
  | zero => intro value; rfl
  | succ v ih => intro value; simp [initVecGo, ih]

theorem and_one_eq_mod (m : Nat) : m &&& 1 = m % 2 := Nat.and_one_is_mod m

theorem shiftRight_one_eq_div (m : Nat) : m >>> 1 = m / 2 := Nat.shiftRight_one m

theorem evalVec_initVecGo : ∀ (v value m : Nat),
    (evalVec (initVecGo v value) m = true) ↔ m % 2 ^ v = value % 2 ^ v := by
  intro v
  induction v with
  | zero => intro value m; simp [initVecGo, evalVec, Nat.mod_one]
  | succ v ih =>
    intro value m
    simp only [initVecGo, evalVec, Bool.and_eq_true]
    rw [ih (value >>> 1) (m >>> 1)]
    rw [and_one_eq_mod, and_one_eq_mod, shiftRight_one_eq_div,
      shiftRight_one_eq_div]
    have hbool : (((m % 2 == 1) == (value % 2 == 1)) = true) ↔
        m % 2 = value % 2 := by
      rcases Nat.mod_two_eq_zero_or_one m with h1 | h1 <;>
        rcases Nat.mod_two_eq_zero_or_one value with h2 | h2 <;>
          simp [h1, h2]
    have hmp : ∀ t : Nat, t % 2 ^ (v + 1) = t % 2 + 2 * (t / 2 % 2 ^ v) := by
      intro t
      rw [pow_succ']
      exact Nat.mod_mul
    rw [hbool, hmp m, hmp value]
    have b1 : m % 2 < 2 := Nat.mod_lt _ (by omega)
    have b2 : value % 2 < 2 := Nat.mod_lt _ (by omega)
    omega

theorem evalVec_set_none_or :
    ∀ (as bs : List Slot) (j : Nat) (x y : Bool) (m : Nat),
      as.length = bs.length → j < as.length →
      as.getD j none = some x → bs.getD j none = some y → x ≠ y →
      (∀ l, l ≠ j → as.getD l none = bs.getD l none) →
      evalVec (as.set j none) m = (evalVec as m || evalVec bs m) := by
  intro as
  induction as with
  | nil => intro bs j x y m hlen hj; simp at hj
  | cons a as ih =>
    intro bs j x y m hlen hj hx hy hxy hag
    cases bs with
    | nil => simp at hlen
    | cons b bs =>
      simp only [List.length_cons, Nat.succ.injEq] at hlen
      cases j with
      | zero =>
        simp only [List.getD_cons_zero] at hx hy
        subst hx
        subst hy
        have hts : as = bs := by
          apply list_ext_getD (none : Slot) as bs hlen
          intro l
          simpa [List.getD_cons_succ] using hag (l + 1) (by omega)
        subst hts
        simp only [List.set, evalVec]
        have hyx : y = !x := by
          cases x <;> cases y <;> simp_all
        subst hyx
        rw [← Bool.and_or_distrib_right]
        have htest : (((m &&& 1) == 1) == x || ((m &&& 1) == 1) == !x) = true := by
          cases hP : ((m &&& 1) == 1) <;> cases x <;> simp
        rw [htest]
      | succ j =>
        have hab : a = b := by
          simpa [List.getD_cons_zero] using hag 0 (by omega)
        subst hab
        simp only [List.getD_cons_succ] at hx hy
        have hrec := ih bs j x y (m >>> 1) hlen (by simpa using hj) hx hy hxy
          (fun l hl => by simpa [List.getD_cons_succ] using hag (l + 1) (by omega))
        simp only [List.set, evalVec, hrec, Bool.and_or_distrib_left]

/-! #### Cover-set membership lemmas -/

theorem mem_mintermFinset (x : Nat) (a : Implicant) :
    x ∈ mintermFinset a ↔ x ∈ a.minterms := by
  simp [mintermFinset]

theorem coverList_nil : coverList [] = ∅ := rfl

theorem coverList_cons (p : Implicant) (rest : List Implicant) :
    coverList (p :: rest) = mintermFinset p ∪ coverList rest := rfl

theorem coverGroups_nil : coverGroups [] = ∅ := rfl

theorem coverGroups_cons (g : List Implicant) (rest : List (List Implicant)) :
    coverGroups (g :: rest) = coverList g ∪ coverGroups rest := rfl

theorem mem_coverList (x : Nat) :
    ∀ ps : List Implicant, x ∈ coverList ps ↔ ∃ a ∈ ps, x ∈ mintermFinset a := by
  intro ps
  induction ps with
  | nil => simp [coverList_nil]
  | cons p rest ih => simp [coverList_cons, ih]

theorem mem_coverGroups (x : Nat) :
    ∀ gs : List (List Implicant),
      x ∈ coverGroups gs ↔ ∃ g ∈ gs, x ∈ coverList g := by
  intro gs
  induction gs with
  | nil => simp [coverGroups_nil]
  | cons g rest ih => simp [coverGroups_cons, ih]

theorem mem_coverGroups_getD (x : Nat) (gs : List (List Implicant)) :
    x ∈ coverGroups gs ↔ ∃ k, x ∈ coverList (gs.getD k []) := by
  rw [mem_coverGroups]
  constructor
  · rintro ⟨g, hg, hx⟩
    obtain ⟨k, hk, hgk⟩ := List.mem_iff_getElem.mp hg
    exact ⟨k, by rwa [List.getD_eq_getElem _ _ hk, hgk]⟩
  · rintro ⟨k, hx⟩
    by_cases hk : k < gs.length
    · exact ⟨gs.getD k [], by
        rw [List.getD_eq_getElem _ _ hk]
        exact List.getElem_mem hk, hx⟩
    · rw [List.getD_eq_default _ _ (by omega)] at hx
      simp [coverList] at hx

/-! #### Bucket lemmas -/

theorem length_bucketAdd (gs : List (List Implicant)) (k : Nat) (a : Implicant) :
    (bucketAdd gs k a).length = gs.length := by
  simp [bucketAdd]

theorem mem_bucketAdd_getD (gs : List (List Implicant)) (k : Nat) (a b : Implicant)
    (j : Nat) :
    b ∈ (bucketAdd gs k a).getD j [] ↔
      b ∈ gs.getD j [] ∨ (j = k ∧ k < gs.length ∧ b = a) := by
  unfold bucketAdd
  by_cases hk : k < gs.length
  · by_cases hjk : j = k
    · subst hjk
      rw [getD_set_self _ _ _ _ hk]
      simp [hk]
    · rw [getD_set_ne _ _ _ _ _ hjk]
      simp [hjk]
  · rw [List.set_eq_of_length_le (by omega)]
    simp [hk]

/-! #### popcount and initial implicants -/

theorem popcount_zero : popcount 0 = 0 := by
  rw [popcount]
  simp

theorem popcount_pos (x : Nat) (h : x ≠ 0) :
    popcount x = popcount (x >>> 1) + (x &&& 1) := by
  rw [popcount]
  simp [h]

theorem count_ones_initVecGo_zero :
    ∀ v : Nat, (initVecGo v 0).count (some true) = 0 := by
  intro v
  induction v with
  | zero => rfl
  | succ v ih =>
    simp only [initVecGo]
    rw [List.count_cons]
    simpa using ih

theorem count_ones_initVecGo :
    ∀ (v value : Nat), value < 2 ^ v →
      (initVecGo v value).count (some true) = popcount value := by
  intro v
  induction v with
  | zero =>
    intro value h
    interval_cases value
    simp [initVecGo, popcount_zero]
  | succ v ih =>
    intro value h
    by_cases hz : value = 0
    · subst hz
      rw [count_ones_initVecGo_zero, popcount_zero]
    · rw [popcount_pos value hz]
      simp only [initVecGo]
      rw [List.count_cons]
      have hlt : value >>> 1 < 2 ^ v := by
        rw [shiftRight_one_eq_div]
        have h2 : (2 : Nat) ^ (v + 1) = 2 * 2 ^ v := pow_succ' 2 v
        omega
      rw [ih (value >>> 1) hlt]
      have hb : (if (some ((value &&& 1) == 1) : Slot) == some true then 1 else 0)
          = value &&& 1 := by
        rw [and_one_eq_mod]
        rcases Nat.mod_two_eq_zero_or_one value with h1 | h1 <;> simp [h1]
      rw [hb]

theorem count_ones_le (a : Implicant) : a.count_ones ≤ a.vec.length :=
  List.count_le_length _ _

/-! #### Analysis of a successful adjacent-bucket merge -/

theorem merge_adjacent (v : Nat) (a b c : Implicant)
    (hla : a.vec.length = v) (hlb : b.vec.length = v)
    (hna : noneCount a.vec = noneCount b.vec)
    (hcb : b.count_ones = a.count_ones + 1)
    (hm : a.try_merge b = some c) :
    ∃ j, j < v ∧ a.vec.getD j none = some false ∧
      b.vec.getD j none = some true ∧
      (∀ l, l ≠ j → a.vec.getD l none = b.vec.getD l none) ∧
      c.vec = a.vec.set j none ∧ c.minterms = a.minterms ++ b.minterms ∧
      c.obsolete = false := by
  obtain ⟨hmt, hob, hcase⟩ :=
    try_merge_some_char a b c (by rw [hla, hlb]) hm
  rcases hcase with ⟨heq, _⟩ | ⟨j, hj, hne, hag, hcvec⟩
  · exfalso
    have : a.count_ones = b.count_ones := by
      unfold Implicant.count_ones
      rw [heq]
    omega
  · have hbs : b.vec = a.vec.set j (b.vec.getD j none) :=
      eq_set_of_agree none a.vec b.vec j (by rw [hla, hlb]) hj hag
    have hnone := count_set_add a.vec j none (b.vec.getD j none) none hj
    have hones := count_set_add a.vec j (some true) (b.vec.getD j none) none hj
    rw [← hbs] at hnone hones
    unfold Implicant.count_ones at hcb
    unfold noneCount at hna
    rcases hx : a.vec.getD j none with _ | xb
    · exfalso
      rw [hx] at hnone hne
      rcases hy : b.vec.getD j none with _ | yb
      · exact hne (by rw [hy])
      · rw [hy] at hnone
        simp at hnone
        omega
    · rcases hy : b.vec.getD j none with _ | yb
      · exfalso
        rw [hx] at hnone
        rw [hy] at hnone
        simp at hnone
        omega
      · rw [hx] at hones hne
        rw [hy] at hones hne
        simp only [ne_eq, Option.some.injEq] at hne
        cases xb <;> cases yb
        · exact absurd rfl hne
        · exact ⟨j, by omega, hx, hy, hag, hcvec, hmt, hob⟩
        · exfalso
          simp at hones
          omega
        · exfalso
          simp at hones
          omega

/-! #### The per-implicant invariant -/

/-- Invariant each implicant of a run satisfies: vector length `v`, the
minterm set is exactly the satisfying set of its conjunction (among
assignments below `2 ^ v`), and all its minterms are true points. -/
structure GoodImp (v : Nat) (trues : Finset Nat) (a : Implicant) : Prop where
  len : a.vec.length = v
  sem : ∀ m, m < 2 ^ v → (evalVec a.vec m = true ↔ m ∈ mintermFinset a)
  sub : mintermFinset a ⊆ trues

theorem good_merge (v : Nat) (trues : Finset Nat) (a b c : Implicant)
    (hga : GoodImp v trues a) (hgb : GoodImp v trues b)
    (hna : noneCount a.vec = noneCount b.vec)
    (hcb : b.count_ones = a.count_ones + 1)
    (hm : a.try_merge b = some c) :
    GoodImp v trues c ∧ noneCount c.vec = noneCount a.vec + 1 ∧
    c.count_ones = a.count_ones ∧ c.obsolete = false ∧
    mintermFinset c = mintermFinset a ∪ mintermFinset b := by
  obtain ⟨j, hj, hx, hy, hag, hcvec, hmt, hob⟩ :=
    merge_adjacent v a b c hga.len hgb.len hna hcb hm
  have hjj : j < a.vec.length := by rw [hga.len]; exact hj
  have hlen : c.vec.length = v := by rw [hcvec, List.length_set, hga.len]
  have hmtf : mintermFinset c = mintermFinset a ∪ mintermFinset b := by
    unfold mintermFinset
    rw [hmt, List.toFinset_append]
  have hev : ∀ m, evalVec c.vec m = (evalVec a.vec m || evalVec b.vec m) := by
    intro m
    rw [hcvec]
    exact evalVec_set_none_or a.vec b.vec j false true m
      (by rw [hga.len, hgb.len]) hjj hx hy (by simp) hag
  have hnc : noneCount c.vec = noneCount a.vec + 1 := by
    unfold noneCount
    rw [hcvec]
    have hcs := count_set_add a.vec j none none none hjj
    rw [hx] at hcs
    simp at hcs
    omega
  have hco : c.count_ones = a.count_ones := by
    unfold Implicant.count_ones
    rw [hcvec]
    have hcs := count_set_add a.vec j (some true) none none hjj
    rw [hx] at hcs
    simp at hcs
    omega
  refine ⟨⟨hlen, ?_, ?_⟩, hnc, hco, hob, hmtf⟩
  · intro m hmv
    rw [hev m, hmtf]
    simp only [Bool.or_eq_true, Finset.mem_union]
    rw [hga.sem m hmv, hgb.sem m hmv]
  · rw [hmtf]
    exact Finset.union_subset hga.sub hgb.sub

/-! #### Merged-pair and bucket-fold lemmas -/

theorem mem_mergedOf (m : Implicant) (g ng : List Implicant) :
    m ∈ mergedOf g ng ↔ ∃ a ∈ g, ∃ b ∈ ng, a.try_merge b = some m := by
  simp [mergedOf]

theorem length_foldl_bucketAdd :
    ∀ (ms : List Implicant) (ng : List (List Implicant)),
      (ms.foldl (fun bs m => bucketAdd bs m.count_ones m) ng).length
        = ng.length := by
  intro ms
  induction ms with
  | nil => intro ng; rfl
  | cons m rest ih =>
    intro ng
    simp only [List.foldl_cons]
    rw [ih, length_bucketAdd]

theorem mem_foldl_bucketAdd :
    ∀ (ms : List Implicant) (ng : List (List Implicant)) (k2 : Nat)
      (a : Implicant),
      (a ∈ (ms.foldl (fun bs m => bucketAdd bs m.count_ones m) ng).getD k2 []
        ↔ a ∈ ng.getD k2 [] ∨
          ∃ m ∈ ms, a = m ∧ k2 = m.count_ones ∧ m.count_ones < ng.length) := by
  intro ms
  induction ms with
  | nil => intro ng k2 a; simp
  | cons m rest ih =>
    intro ng k2 a
    simp only [List.foldl_cons]
    rw [ih, mem_bucketAdd_getD, length_bucketAdd]
    constructor
    · rintro ((hin | ⟨h1, h2, h3⟩) | ⟨m', hm', h1, h2, h3⟩)
      · exact Or.inl hin
      · exact Or.inr ⟨m, by simp, h3, h1, h2⟩
      · exact Or.inr ⟨m', by simp [hm'], h1, h2, h3⟩
    · rintro (hin | ⟨m', hm', h1, h2, h3⟩)
      · exact Or.inl (Or.inl hin)
      · rcases List.mem_cons.mp hm' with rfl | hm'
        · exact Or.inl (Or.inr ⟨h2, h3, h1⟩)
        · exact Or.inr ⟨m', hm', h1, h2, h3⟩

theorem mem_markLeft_filter (g ng : List Implicant) (a : Implicant) :
    a ∈ (markLeft g ng).filter (fun x => !x.obsolete) ↔
      a ∈ g ∧ a.obsolete = false ∧
        (ng.any fun b => (a.try_merge b).isSome) = false := by
  unfold markLeft
  rw [List.mem_filter, List.mem_map]
  constructor
  · rintro ⟨⟨a0, ha0, heq⟩, hflag⟩
    by_cases hp : (ng.any fun b => (a0.try_merge b).isSome) = true
    · rw [if_pos hp] at heq
      rw [← heq] at hflag
      simp at hflag
    · rw [if_neg hp] at heq
      subst heq
      exact ⟨ha0, by simpa using hflag, by simpa using hp⟩
  · rintro ⟨ha, hob, hp⟩
    exact ⟨⟨a, ha, by simp [hp]⟩, by simp [hob]⟩

theorem mem_markRight_elim (g ng : List Implicant) (a : Implicant)
    (h : a ∈ markRight g ng) :
    ∃ b ∈ ng, (a = b ∨ (a = { b with obsolete := true } ∧
      (g.any fun x => (x.try_merge b).isSome) = true)) := by
  unfold markRight at h
  obtain ⟨b, hb, heq⟩ := List.mem_map.mp h
  by_cases hp : (g.any fun x => (x.try_merge b).isSome) = true
  · rw [if_pos hp] at heq
    exact ⟨b, hb, Or.inr ⟨heq.symm, hp⟩⟩
  · rw [if_neg hp] at heq
    exact ⟨b, hb, Or.inl heq.symm⟩

theorem markLeft_of_no_merge (g ng : List Implicant)
    (h : ∀ a ∈ g, ∀ b ∈ ng, a.try_merge b = none) :
    markLeft g ng = g := by
  unfold markLeft
  rw [List.map_congr_left (g := id), List.map_id]
  intro a ha
  have : (ng.any fun b => (a.try_merge b).isSome) = false := by
    rw [List.any_eq_false]
    intro b hb
    simp [h a ha b hb]
  simp [this]

theorem markRight_of_no_merge (g ng : List Implicant)
    (h : ∀ a ∈ g, ∀ b ∈ ng, a.try_merge b = none) :
    markRight g ng = ng := by
  unfold markRight
  rw [List.map_congr_left (g := id), List.map_id]
  intro b hb
  have : (g.any fun a => (a.try_merge b).isSome) = false := by
    rw [List.any_eq_false]
    intro a ha
    simp [h a ha b hb]
  simp [this]

theorem mergedOf_nil_of_no_merge (g ng : List Implicant)
    (h : (mergedOf g ng).isEmpty = true) :
    ∀ a ∈ g, ∀ b ∈ ng, a.try_merge b = none := by
  intro a ha b hb
  rw [List.isEmpty_iff] at h
  rcases hm : a.try_merge b with _ | m
  · rfl
  · exfalso
    have : m ∈ mergedOf g ng := (mem_mergedOf m g ng).mpr ⟨a, ha, b, hb, hm⟩
    rw [h] at this
    simp at this

theorem coverList_append (l1 l2 : List Implicant) :
    coverList (l1 ++ l2) = coverList l1 ∪ coverList l2 := by
  induction l1 with
  | nil => simp [coverList_nil, coverList_cons]
  | cons p rest ih => simp [coverList_cons, ih, Finset.union_assoc]

theorem good_flag (v : Nat) (trues : Finset Nat) (b : Implicant)
    (h : GoodImp v trues b) :
    GoodImp v trues { b with obsolete := true } :=
  ⟨h.len, h.sem, h.sub⟩

theorem noneCount_le_len (a : Implicant) : noneCount a.vec ≤ a.vec.length :=
  List.count_le_length _ _

/-- One full pass of the bucket loop of `__merge_step` preserves the run
invariants: the fresh buckets hold only correctly bucketed, unflagged
implicants with one more don't-care slot whose minterm sets are exactly their
satisfying sets; appended primes are invariant implicants; no covered minterm
is lost; a `changed` result forces `d + 1 ≤ v`; and an unchanged result moves
every remaining implicant to the prime list, leaving the fresh buckets as
given. -/
theorem merge_step_go_spec (v d : Nat) (trues : Finset Nat) :
    ∀ (gls : List (List Implicant)) (k : Nat) (g : List Implicant)
      (ng : List (List Implicant)) (ps : List Implicant) (c : Bool),
      (∀ a ∈ g, a.count_ones = k) →
      (∀ a ∈ g, noneCount a.vec = d) →
      (∀ a ∈ g, GoodImp v trues a) →
      (∀ a ∈ g, a.obsolete = true → ∀ x ∈ mintermFinset a, x ∈ coverGroups ng) →
      (∀ idx, ∀ a ∈ gls.getD idx [],
        a.count_ones = k + 1 + idx ∧ noneCount a.vec = d ∧ GoodImp v trues a ∧
        a.obsolete = false) →
      ng.length = v + 1 →
      (∀ k2, ∀ a ∈ ng.getD k2 [],
        a.count_ones = k2 ∧ noneCount a.vec = d + 1 ∧ GoodImp v trues a ∧
        a.obsolete = false) →
      (∀ a ∈ ps, GoodImp v trues a) →
      (c = true → d + 1 ≤ v) →
      (c = false → ∀ a ∈ g, a.obsolete = false) →
      ((merge_step_go g gls ng ps c).1.length = v + 1) ∧
      (∀ k2, ∀ a ∈ (merge_step_go g gls ng ps c).1.getD k2 [],
        a.count_ones = k2 ∧ noneCount a.vec = d + 1 ∧ GoodImp v trues a ∧
        a.obsolete = false) ∧
      (∀ a ∈ (merge_step_go g gls ng ps c).2.1, GoodImp v trues a) ∧
      (∀ x, x ∈ coverGroups ng → x ∈ coverGroups (merge_step_go g gls ng ps c).1) ∧
      (∀ x, x ∈ coverList ps → x ∈ coverList (merge_step_go g gls ng ps c).2.1) ∧
      (∀ x, x ∈ coverList g ∨ x ∈ coverGroups gls →
        x ∈ coverGroups (merge_step_go g gls ng ps c).1 ∨
        x ∈ coverList (merge_step_go g gls ng ps c).2.1) ∧
      ((merge_step_go g gls ng ps c).2.2 = true → d + 1 ≤ v) ∧
      ((merge_step_go g gls ng ps c).2.2 = false →
        (merge_step_go g gls ng ps c).1 = ng ∧
        (merge_step_go g gls ng ps c).2.1 = ps ++ g ++ gls.flatten ∧
        c = false) := by
  intro gls
  induction gls with
  | nil =>
    intro k g ng ps c hgc hgn hgg hgf hgls hnl hng hps hc hcf
    simp only [merge_step_go]
    refine ⟨hnl, hng, ?_, fun x hx => hx, ?_, ?_, hc, ?_⟩
    · intro a ha
      rcases List.mem_append.mp ha with ha | ha
      · exact hps a ha
      · exact hgg a (List.mem_filter.mp ha).1
    · intro x hx
      rw [coverList_append]
      exact Finset.mem_union_left _ hx
    · intro x hx
      rcases hx with hx | hx
      · obtain ⟨a, ha, hxa⟩ := (mem_coverList x g).mp hx
        rcases hob : a.obsolete with _ | _
        · right
          rw [coverList_append]
          apply Finset.mem_union_right
          rw [mem_coverList]
          exact ⟨a, List.mem_filter.mpr ⟨ha, by simp [hob]⟩, hxa⟩
        · left
          exact hgf a ha hob x hxa
      · rw [coverGroups_nil] at hx
        simp at hx
    · intro hcc
      refine ⟨by trivial, ?_, hcc⟩
      have hfg : g.filter (fun a => !a.obsolete) = g :=
        List.filter_eq_self.mpr (fun a ha => by simp [hcf hcc a ha])
      simp [hfg]
  | cons g2 rest ih =>
    intro k g ng ps c hgc hgn hgg hgf hgls hnl hng hps hc hcf
    have hg2 : ∀ b ∈ g2, b.count_ones = k + 1 ∧ noneCount b.vec = d ∧
        GoodImp v trues b ∧ b.obsolete = false := by
      intro b hb
      have := hgls 0 (a := b) (by simpa using hb)
      simpa using this
    have hms : ∀ m ∈ mergedOf g g2, GoodImp v trues m ∧
        noneCount m.vec = d + 1 ∧ m.count_ones = k ∧ m.obsolete = false ∧
        ∃ a ∈ g, ∃ b ∈ g2, mintermFinset m = mintermFinset a ∪ mintermFinset b := by
      intro m hm
      obtain ⟨a, ha, b, hb, hab⟩ := (mem_mergedOf m g g2).mp hm
      obtain ⟨hbc, hbn, hbg, _⟩ := hg2 b hb
      obtain ⟨hg, hn, hcnt, hob, hmt⟩ := good_merge v trues a b m (hgg a ha) hbg
        (by rw [hgn a ha, hbn]) (by rw [hbc, hgc a ha]) hab
      exact ⟨hg, by rw [hn, hgn a ha], by rw [hcnt, hgc a ha], hob,
        a, ha, b, hb, hmt⟩
    have hkv : ∀ a ∈ g, k ≤ v := by
      intro a ha
      have h1 := count_ones_le a
      rw [hgc a ha, (hgg a ha).len] at h1
      exact h1
    have hstep : merge_step_go g (g2 :: rest) ng ps c
        = merge_step_go (markRight g g2) rest
            ((mergedOf g g2).foldl (fun bs m => bucketAdd bs m.count_ones m) ng)
            (ps ++ (markLeft g g2).filter (fun a => !a.obsolete))
            (c || !(mergedOf g g2).isEmpty) := rfl
    have hngl : ((mergedOf g g2).foldl
        (fun bs m => bucketAdd bs m.count_ones m) ng).length = v + 1 := by
      rw [length_foldl_bucketAdd, hnl]
    have hng2 : ∀ k2, ∀ a ∈ ((mergedOf g g2).foldl
        (fun bs m => bucketAdd bs m.count_ones m) ng).getD k2 [],
        a.count_ones = k2 ∧ noneCount a.vec = d + 1 ∧ GoodImp v trues a ∧
        a.obsolete = false := by
      intro k2 a ha
      rcases (mem_foldl_bucketAdd _ ng k2 a).mp ha with ha | ⟨m, hm, heq, hk2, _⟩
      · exact hng k2 a ha
      · obtain ⟨h1, h2, h3, h4, _⟩ := hms m hm
        subst heq
        exact ⟨by rw [hk2, h3], h2, h1, h4⟩
    have hngmono : ∀ x, x ∈ coverGroups ng →
        x ∈ coverGroups ((mergedOf g g2).foldl
          (fun bs m => bucketAdd bs m.count_ones m) ng) := by
      intro x hx
      rw [mem_coverGroups_getD] at hx ⊢
      obtain ⟨k2, hk2⟩ := hx
      refine ⟨k2, ?_⟩
      rw [mem_coverList] at hk2 ⊢
      obtain ⟨a, ha, hxa⟩ := hk2
      exact ⟨a, (mem_foldl_bucketAdd _ ng k2 a).mpr (Or.inl ha), hxa⟩
    have hmerged_in : ∀ m ∈ mergedOf g g2, ∀ x ∈ mintermFinset m,
        x ∈ coverGroups ((mergedOf g g2).foldl
          (fun bs m => bucketAdd bs m.count_ones m) ng) := by
      intro m hm x hx
      obtain ⟨_, _, hcnt, _, a, ha, _⟩ := hms m hm
      rw [mem_coverGroups_getD]
      refine ⟨m.count_ones, ?_⟩
      rw [mem_coverList]
      refine ⟨m, (mem_foldl_bucketAdd _ ng m.count_ones m).mpr ?_, hx⟩
      have hkv2 : k ≤ v := hkv a ha
      have hbound : m.count_ones < ng.length := by
        rw [hcnt, hnl]
        omega
      exact Or.inr ⟨m, hm, rfl, rfl, hbound⟩
    have hmr : ∀ a ∈ markRight g g2,
        a.count_ones = k + 1 ∧ noneCount a.vec = d ∧ GoodImp v trues a := by
      intro a ha
      obtain ⟨b, hb, hcase⟩ := mem_markRight_elim g g2 a ha
      obtain ⟨h1, h2, h3, _⟩ := hg2 b hb
      rcases hcase with rfl | ⟨rfl, _⟩
      · exact ⟨h1, h2, h3⟩
      · exact ⟨h1, h2, good_flag v trues b h3⟩
    have hmrflag : ∀ a ∈ markRight g g2, a.obsolete = true →
        ∀ x ∈ mintermFinset a,
          x ∈ coverGroups ((mergedOf g g2).foldl
            (fun bs m => bucketAdd bs m.count_ones m) ng) := by
      intro a ha hob x hx
      obtain ⟨b, hb, hcase⟩ := mem_markRight_elim g g2 a ha
      obtain ⟨_, _, _, hbf⟩ := hg2 b hb
      rcases hcase with rfl | ⟨rfl, hpred⟩
      · rw [hbf] at hob
        simp at hob
      · obtain ⟨a0, ha0, hsome⟩ := List.any_eq_true.mp hpred
        rcases hm0 : a0.try_merge b with _ | m
        · rw [hm0] at hsome
          simp at hsome
        · have hmin : m ∈ mergedOf g g2 :=
            (mem_mergedOf m g g2).mpr ⟨a0, ha0, b, hb, hm0⟩
          apply hmerged_in m hmin
          obtain ⟨hmtm, _, hcase2⟩ := try_merge_some_char a0 b m
            (by rw [(hgg a0 ha0).len, (hg2 b hb).2.2.1.len]) hm0
          have : mintermFinset m = mintermFinset a0 ∪ mintermFinset b := by
            unfold mintermFinset
            rw [hmtm, List.toFinset_append]
          rw [this]
          exact Finset.mem_union_right _ hx
    have hps2 : ∀ a ∈ ps ++ (markLeft g g2).filter (fun x => !x.obsolete),
        GoodImp v trues a := by
      intro a ha
      rcases List.mem_append.mp ha with ha | ha
      · exact hps a ha
      · exact hgg a ((mem_markLeft_filter g g2 a).mp ha).1
    have hc2 : (c || !(mergedOf g g2).isEmpty) = true → d + 1 ≤ v := by
      intro hcc
      rcases Bool.or_eq_true_iff.mp hcc with hcc | hcc
      · exact hc hcc
      · rcases hml : mergedOf g g2 with _ | ⟨m, ms0⟩
        · rw [hml] at hcc
          simp at hcc
        · have hm : m ∈ mergedOf g g2 := by rw [hml]; simp
          obtain ⟨hg, hn, _, _, _⟩ := hms m hm
          have := noneCount_le_len m
          rw [hn, hg.len] at this
          exact this
    have hcf2 : (c || !(mergedOf g g2).isEmpty) = false →
        ∀ a ∈ markRight g g2, a.obsolete = false := by
      intro hcc
      rcases Bool.or_eq_false_iff.mp hcc with ⟨hc0, hme⟩
      have hnom : ∀ a ∈ g, ∀ b ∈ g2, a.try_merge b = none :=
        mergedOf_nil_of_no_merge g g2 (by simpa using hme)
      rw [markRight_of_no_merge g g2 hnom]
      intro a ha
      exact (hg2 a ha).2.2.2
    have hgls2 : ∀ idx, ∀ a ∈ rest.getD idx [],
        a.count_ones = k + 1 + 1 + idx ∧ noneCount a.vec = d ∧
        GoodImp v trues a ∧ a.obsolete = false := by
      intro idx a ha
      obtain ⟨h1, h2, h3, h4⟩ := hgls (idx + 1) (a := a)
        (by simpa [List.getD_cons_succ] using ha)
      exact ⟨by omega, h2, h3, h4⟩
    have hIH := ih (k + 1) (markRight g g2)
      ((mergedOf g g2).foldl (fun bs m => bucketAdd bs m.count_ones m) ng)
      (ps ++ (markLeft g g2).filter (fun a => !a.obsolete))
      (c || !(mergedOf g g2).isEmpty)
      (fun a ha => (hmr a ha).1) (fun a ha => (hmr a ha).2.1)
      (fun a ha => (hmr a ha).2.2) hmrflag hgls2 hngl hng2 hps2 hc2 hcf2
    obtain ⟨i1, i2, i3, i4, i5, i6, i7, i8⟩ := hIH
    rw [hstep]
    refine ⟨i1, i2, i3, ?_, ?_, ?_, i7, ?_⟩
    · intro x hx
      exact i4 x (hngmono x hx)
    · intro x hx
      apply i5
      rw [coverList_append]
      exact Finset.mem_union_left _ hx
    · intro x hx
      rcases hx with hx | hx
      · obtain ⟨a, ha, hxa⟩ := (mem_coverList x g).mp hx
        rcases hob : a.obsolete with _ | _
        · by_cases hpred : (g2.any fun b => (a.try_merge b).isSome) = true
          · obtain ⟨b, hb, hsome⟩ := List.any_eq_true.mp hpred
            rcases hm0 : a.try_merge b with _ | m
            · rw [hm0] at hsome
              simp at hsome
            · have hmin : m ∈ mergedOf g g2 :=
                (mem_mergedOf m g g2).mpr ⟨a, ha, b, hb, hm0⟩
              left
              apply i4
              apply hmerged_in m hmin
              obtain ⟨hmtm, _, _⟩ := try_merge_some_char a b m
                (by rw [(hgg a ha).len, (hg2 b hb).2.2.1.len]) hm0
              have hmu : mintermFinset m
                  = mintermFinset a ∪ mintermFinset b := by
                unfold mintermFinset
                rw [hmtm, List.toFinset_append]
              rw [hmu]
              exact Finset.mem_union_left _ hxa
          · right
            apply i5
            rw [coverList_append]
            apply Finset.mem_union_right
            rw [mem_coverList]
            exact ⟨a, (mem_markLeft_filter g g2 a).mpr
              ⟨ha, hob, by simpa using hpred⟩, hxa⟩
        · left
          apply i4
          exact hngmono x (hgf a ha hob x hxa)
      · rw [coverGroups_cons] at hx
        rcases Finset.mem_union.mp hx with hx | hx
        · obtain ⟨b, hb, hxb⟩ := (mem_coverList x g2).mp hx
          apply i6
          left
          rw [mem_coverList]
          by_cases hpred : (g.any fun a0 => (a0.try_merge b).isSome) = true
          · refine ⟨{ b with obsolete := true }, ?_, hxb⟩
            unfold markRight
            exact List.mem_map.mpr ⟨b, hb, by simp [hpred]⟩
          · refine ⟨b, ?_, hxb⟩
            unfold markRight
            exact List.mem_map.mpr ⟨b, hb, by simp [hpred]⟩
        · exact i6 x (Or.inr hx)
    · intro hcc
      obtain ⟨e1, e2, e3⟩ := i8 hcc
      rcases Bool.or_eq_false_iff.mp e3 with ⟨hc0, hme⟩
      have hnom : ∀ a ∈ g, ∀ b ∈ g2, a.try_merge b = none :=
        mergedOf_nil_of_no_merge g g2 (by simpa using hme)
      have hmse : mergedOf g g2 = [] := List.isEmpty_iff.mp (by simpa using hme)
      have hfold : (mergedOf g g2).foldl
          (fun bs m => bucketAdd bs m.count_ones m) ng = ng := by
        rw [hmse]
        rfl
      have hmL : markLeft g g2 = g := markLeft_of_no_merge g g2 hnom
      have hmR : markRight g g2 = g2 := markRight_of_no_merge g g2 hnom
      have hfg : g.filter (fun a => !a.obsolete) = g :=
        List.filter_eq_self.mpr (fun a ha => by simp [hcf hc0 a ha])
      refine ⟨by rw [e1, hfold], ?_, hc0⟩
      rw [e2, hmR, hmL, hfg]
      simp [List.append_assoc]

/-! #### Round invariant and the top-level step -/

/-- Invariant of the minimizer state at the start of a round: `v + 1` buckets;
every implicant sits in the bucket of its ones-count, carries `d` don't-care
slots, satisfies the per-implicant invariant and is unflagged; accumulated
primes satisfy the per-implicant invariant; every true point is covered by
some group implicant or some prime. -/
structure RoundInv (v d : Nat) (trues : Finset Nat) (gs : List (List Implicant))
    (ps : List Implicant) : Prop where
  glen : gs.length = v + 1
  buckets : ∀ k, ∀ a ∈ gs.getD k [], a.count_ones = k ∧ noneCount a.vec = d ∧
    GoodImp v trues a ∧ a.obsolete = false
  psGood : ∀ a ∈ ps, GoodImp v trues a
  cover : ∀ x ∈ trues, x ∈ coverGroups gs ∨ x ∈ coverList ps

theorem getD_map_const_nil :
    ∀ (l : List (List Implicant)) (k : Nat),
      (l.map fun _ => ([] : List Implicant)).getD k [] = [] := by
  intro l
  induction l with
  | nil => intro k; simp
  | cons g rest ih =>
    intro k
    cases k with
    | zero => simp
    | succ k => simpa [List.getD_cons_succ] using ih k

theorem coverGroups_map_const_nil (l : List (List Implicant)) :
    coverGroups (l.map fun _ => ([] : List Implicant)) = ∅ := by
  ext x
  rw [mem_coverGroups_getD]
  simp [getD_map_const_nil, coverList_nil]

theorem merge_step_spec (v d : Nat) (trues : Finset Nat)
    (gs : List (List Implicant)) (ps : List Implicant)
    (hInv : RoundInv v d trues gs ps) :
    RoundInv v (d + 1) trues (merge_step gs ps).1 (merge_step gs ps).2.1 ∧
    ((merge_step gs ps).2.2 = true → d + 1 ≤ v) ∧
    ((merge_step gs ps).2.2 = false →
      (∀ x ∈ trues, x ∈ coverList (merge_step gs ps).2.1) ∧
      (∀ k, (merge_step gs ps).1.getD k [] = [])) := by
  rcases hgs : gs with _ | ⟨g, gls⟩
  · exfalso
    have := hInv.glen
    rw [hgs] at this
    simp at this
  subst hgs
  have hg0 := fun a ha => hInv.buckets 0 a (by simpa using ha)
  have hstep : merge_step (g :: gls) ps
      = merge_step_go g gls ((g :: gls).map fun _ => []) ps false := rfl
  have hspec := merge_step_go_spec v d trues gls 0 g
    ((g :: gls).map fun _ => []) ps false
    (fun a ha => (hg0 a ha).1) (fun a ha => (hg0 a ha).2.1)
    (fun a ha => (hg0 a ha).2.2.1)
    (fun a ha hob => by
      rw [(hg0 a ha).2.2.2] at hob
      simp at hob)
    (fun idx a ha => by
      have := hInv.buckets (idx + 1) a
        (by simpa [List.getD_cons_succ] using ha)
      exact ⟨by omega, this.2⟩)
    (by rw [List.length_map, hInv.glen])
    (fun k2 a ha => by
      rw [getD_map_const_nil] at ha
      simp at ha)
    hInv.psGood
    (by intro h; simp at h)
    (fun _ a ha => (hg0 a ha).2.2.2)
  obtain ⟨s1, s2, s3, s4, s5, s6, s7, s8⟩ := hspec
  rw [hstep]
  refine ⟨⟨s1, s2, s3, ?_⟩, s7, ?_⟩
  · intro x hx
    rcases hInv.cover x hx with hc | hc
    · rw [coverGroups_cons] at hc
      rcases Finset.mem_union.mp hc with hc | hc
      · exact s6 x (Or.inl hc)
      · exact s6 x (Or.inr hc)
    · exact Or.inr (s5 x hc)
  · intro hcc
    obtain ⟨e1, e2, _⟩ := s8 hcc
    constructor
    · intro x hx
      rcases hInv.cover x hx with hc | hc
      · rw [coverGroups_cons] at hc
        rcases s6 x (by
            rcases Finset.mem_union.mp hc with hc | hc
            · exact Or.inl hc
            · exact Or.inr hc) with hr | hr
        · rw [e1, coverGroups_map_const_nil] at hr
          simp at hr
        · exact hr
      · exact s5 x hc
    · intro k
      rw [e1, getD_map_const_nil]

theorem merge_loop_succ (f : Nat) (gs : List (List Implicant))
    (ps : List Implicant) :
    merge_loop (f + 1) (gs, ps)
      = if (merge_step gs ps).2.2 then
          merge_loop f ((merge_step gs ps).1, (merge_step gs ps).2.1)
        else ((merge_step gs ps).1, (merge_step gs ps).2.1) := rfl

theorem merge_rounds_succ (f : Nat) (gs : List (List Implicant))
    (ps : List Implicant) :
    merge_rounds (f + 1) (gs, ps)
      = if (merge_step gs ps).2.2 then
          merge_rounds f ((merge_step gs ps).1, (merge_step gs ps).2.1) + 1
        else 1 := rfl

theorem merge_step_go_all_nil :
    ∀ (gls : List (List Implicant)) (ng : List (List Implicant))
      (ps : List Implicant) (c : Bool),
      (∀ x ∈ gls, x = ([] : List Implicant)) →
      (merge_step_go [] gls ng ps c).2.2 = c := by
  intro gls
  induction gls with
  | nil => intro ng ps c _; rfl
  | cons g2 rest ih =>
    intro ng ps c hnil
    have hg2 : g2 = [] := hnil g2 (by simp)
    subst hg2
    have hrec := ih ng (ps ++ (markLeft [] []).filter (fun a => !a.obsolete))
      (c || !(mergedOf [] []).isEmpty) (fun x hx => hnil x (by simp [hx]))
    simpa [merge_step_go, mergedOf, markRight] using hrec

theorem merge_step_of_empty (gs : List (List Implicant)) (ps : List Implicant)
    (h : ∀ k, gs.getD k [] = []) :
    (merge_step gs ps).2.2 = false := by
  rcases gs with _ | ⟨g, gls⟩
  · rfl
  · have hg : g = [] := by simpa using h 0
    subst hg
    have hnil : ∀ x ∈ gls, x = ([] : List Implicant) := by
      intro x hx
      obtain ⟨idx, hidx, hgx⟩ := List.mem_iff_getElem.mp hx
      have := h (idx + 1)
      rw [List.getD_cons_succ, List.getD_eq_getElem _ _ hidx, hgx] at this
      exact this
    exact merge_step_go_all_nil gls (([] :: gls).map fun _ => []) ps false hnil

/-- Running the fuelled loop from an invariant state with `d ≤ v` and fuel
above `v - d`: the accumulated primes satisfy the per-implicant invariant and
cover every true point, the result is independent of any fuel above `v - d`
(the loop reaches its zero-merge round within `v - d + 1` steps), the total
round count is at most `v - d + 1`, and the final bucket set is empty. -/
theorem merge_loop_spec (v : Nat) (trues : Finset Nat) :
    ∀ (f d : Nat) (gs : List (List Implicant)) (ps : List Implicant),
      RoundInv v d trues gs ps → d ≤ v → v - d < f →
      (∀ a ∈ (merge_loop f (gs, ps)).2, GoodImp v trues a) ∧
      (∀ x ∈ trues, x ∈ coverList (merge_loop f (gs, ps)).2) ∧
      (∀ f2, v - d < f2 →
        merge_loop f2 (gs, ps) = merge_loop f (gs, ps) ∧
        merge_rounds f2 (gs, ps) = merge_rounds f (gs, ps)) ∧
      merge_rounds f (gs, ps) ≤ v - d + 1 ∧
      (∀ k, (merge_loop f (gs, ps)).1.getD k [] = []) := by
  intro f
  induction f with
  | zero =>
    intro d gs ps hInv hd hf
    omega
  | succ f ih =>
    intro d gs ps hInv hd hf
    obtain ⟨hInv2, hch, hcf⟩ := merge_step_spec v d trues gs ps hInv
    rcases hc : (merge_step gs ps).2.2 with _ | _
    · obtain ⟨hcov, hempt⟩ := hcf hc
      have hloop : ∀ f2, merge_loop (f2 + 1) (gs, ps)
          = ((merge_step gs ps).1, (merge_step gs ps).2.1) := by
        intro f2
        rw [merge_loop_succ, hc]
        simp
      have hrounds : ∀ f2, merge_rounds (f2 + 1) (gs, ps) = 1 := by
        intro f2
        rw [merge_rounds_succ, hc]
        simp
      refine ⟨?_, ?_, ?_, ?_, ?_⟩
      · rw [hloop f]
        exact hInv2.psGood
      · rw [hloop f]
        exact hcov
      · intro f2 hf2
        rcases f2 with _ | f2
        · omega
        · rw [hloop f2, hloop f, hrounds f2, hrounds f]
          exact ⟨rfl, rfl⟩
      · rw [hrounds f]
        omega
      · intro k
        rw [hloop f]
        exact hempt k
    · have hdv : d + 1 ≤ v := hch hc
      have hrec := ih (d + 1) (merge_step gs ps).1 (merge_step gs ps).2.1
        hInv2 (by omega) (by omega)
      obtain ⟨r1, r2, r3, r4, r5⟩ := hrec
      have hloop : ∀ f2, merge_loop (f2 + 1) (gs, ps)
          = merge_loop f2 ((merge_step gs ps).1, (merge_step gs ps).2.1) := by
        intro f2
        rw [merge_loop_succ, hc]
        simp
      have hrounds : ∀ f2, merge_rounds (f2 + 1) (gs, ps)
          = merge_rounds f2 ((merge_step gs ps).1, (merge_step gs ps).2.1) + 1 := by
        intro f2
        rw [merge_rounds_succ, hc]
        simp
      refine ⟨?_, ?_, ?_, ?_, ?_⟩
      · rw [hloop f]
        exact r1
      · rw [hloop f]
        exact r2
      · intro f2 hf2
        rcases f2 with _ | f2
        · omega
        · rw [hloop f2, hloop f, hrounds f2, hrounds f]
          obtain ⟨e1, e2⟩ := r3 f2 (by omega)
          exact ⟨e1, by rw [e2]⟩
      · rw [hrounds f]
        omega
      · intro k
        rw [hloop f]
        exact r5 k

/-! #### The initial state satisfies the invariant -/

theorem mem_requSet (vec : List Nat) (x : Nat) :
    x ∈ requSet vec ↔ x < vec.length ∧ vec.getD x 0 = 1 := by
  simp [requSet, List.mem_filter, List.mem_range]

theorem init_fold_length (v : Nat) (vec : List Nat) :
    ∀ (is : List Nat) (gs0 : List (List Implicant)),
      (is.foldl (fun gs i => if vec.getD i 0 = 0 then gs
          else bucketAdd gs (popcount i) (Implicant.ofValue v i)) gs0).length
        = gs0.length := by
  intro is
  induction is with
  | nil => intro gs0; rfl
  | cons i rest ih =>
    intro gs0
    simp only [List.foldl_cons]
    rw [ih]
    by_cases hz : vec.getD i 0 = 0
    · rw [if_pos hz]
    · rw [if_neg hz, length_bucketAdd]

theorem init_fold_mem (v : Nat) (vec : List Nat) :
    ∀ (is : List Nat) (gs0 : List (List Implicant)) (k : Nat) (a : Implicant),
      (a ∈ (is.foldl (fun gs i => if vec.getD i 0 = 0 then gs
          else bucketAdd gs (popcount i) (Implicant.ofValue v i)) gs0).getD k []
        ↔ a ∈ gs0.getD k [] ∨ ∃ i ∈ is, vec.getD i 0 ≠ 0 ∧ k = popcount i ∧
            popcount i < gs0.length ∧ a = Implicant.ofValue v i) := by
  intro is
  induction is with
  | nil => intro gs0 k a; simp
  | cons i rest ih =>
    intro gs0 k a
    simp only [List.foldl_cons]
    by_cases hz : vec.getD i 0 = 0
    · rw [if_pos hz, ih]
      constructor
      · rintro (h | ⟨i2, h1, h2, h3, h4, h5⟩)
        · exact Or.inl h
        · exact Or.inr ⟨i2, by simp [h1], h2, h3, h4, h5⟩
      · rintro (h | ⟨i2, h1, h2, h3, h4, h5⟩)
        · exact Or.inl h
        · rcases List.mem_cons.mp h1 with rfl | h1
          · exact absurd hz h2
          · exact Or.inr ⟨i2, h1, h2, h3, h4, h5⟩
    · rw [if_neg hz, ih, mem_bucketAdd_getD, length_bucketAdd]
      constructor
      · rintro ((h | ⟨h1, h2, h3⟩) | ⟨i2, h1, h2, h3, h4, h5⟩)
        · exact Or.inl h
        · exact Or.inr ⟨i, by simp, hz, h1, h2, h3⟩
        · exact Or.inr ⟨i2, by simp [h1], h2, h3, h4, h5⟩
      · rintro (h | ⟨i2, h1, h2, h3, h4, h5⟩)
        · exact Or.inl (Or.inl h)
        · rcases List.mem_cons.mp h1 with rfl | h1
          · exact Or.inl (Or.inr ⟨h3, h4, h5⟩)
          · exact Or.inr ⟨i2, h1, h2, h3, h4, h5⟩

theorem getD_replicate_nil :
    ∀ (n k : Nat), (List.replicate n ([] : List Implicant)).getD k [] = [] := by
  intro n
  induction n with
  | zero => intro k; simp
  | succ n ih =>
    intro k
    cases k with
    | zero => simp [List.replicate]
    | succ k => simpa [List.replicate, List.getD_cons_succ] using ih k

theorem ofValue_spec (v i : Nat) (trues : Finset Nat) (hi : i < 2 ^ v)
    (hmem : i ∈ trues) :
    (Implicant.ofValue v i).count_ones = popcount i ∧
    noneCount (Implicant.ofValue v i).vec = 0 ∧
    GoodImp v trues (Implicant.ofValue v i) ∧
    (Implicant.ofValue v i).obsolete = false := by
  refine ⟨count_ones_initVecGo v i hi, noneCount_initVecGo v i, ⟨?_, ?_, ?_⟩, rfl⟩
  · exact initVecGo_length v i
  · intro m hm
    show evalVec (initVecGo v i) m = true ↔ m ∈ mintermFinset (Implicant.ofValue v i)
    rw [evalVec_initVecGo v i m]
    have h1 : m % 2 ^ v = m := Nat.mod_eq_of_lt hm
    have h2 : i % 2 ^ v = i := Nat.mod_eq_of_lt hi
    rw [h1, h2]
    simp [Implicant.ofValue, mintermFinset]
  · intro x hx
    simp [Implicant.ofValue, mintermFinset] at hx
    rwa [hx]

theorem init_Inv (v : Nat) (vec : List Nat)
    (hlen : vec.length = 2 ^ v) (hbit : ∀ x ∈ vec, x = 0 ∨ x = 1) :
    RoundInv v 0 (requSet vec) (init_groups v vec) [] := by
  have hgetD1 : ∀ i, i < vec.length → vec.getD i 0 ≠ 0 → vec.getD i 0 = 1 := by
    intro i hi hne
    have hmem : vec.getD i 0 ∈ vec := by
      rw [List.getD_eq_getElem _ _ hi]
      exact List.getElem_mem hi
    rcases hbit _ hmem with h | h
    · exact absurd h hne
    · exact h
  have hofv : ∀ i, i ∈ List.range vec.length → vec.getD i 0 ≠ 0 →
      (Implicant.ofValue v i).count_ones = popcount i ∧
      noneCount (Implicant.ofValue v i).vec = 0 ∧
      GoodImp v (requSet vec) (Implicant.ofValue v i) ∧
      (Implicant.ofValue v i).obsolete = false := by
    intro i hir hne
    rw [List.mem_range] at hir
    exact ofValue_spec v i (requSet vec) (by omega)
      ((mem_requSet vec i).mpr ⟨hir, hgetD1 i hir hne⟩)
  refine ⟨?_, ?_, ?_, ?_⟩
  · unfold init_groups
    rw [init_fold_length, List.length_replicate]
  · intro k a ha
    unfold init_groups at ha
    rw [init_fold_mem] at ha
    rcases ha with ha | ⟨i, hir, hne, hk, _, heq⟩
    · rw [getD_replicate_nil] at ha
      simp at ha
    · subst heq
      obtain ⟨h1, h2, h3, h4⟩ := hofv i hir hne
      exact ⟨by rw [h1, hk], h2, h3, h4⟩
  · intro a ha
    simp at ha
  · intro x hx
    left
    obtain ⟨hxl, hx1⟩ := (mem_requSet vec x).mp hx
    rw [mem_coverGroups_getD]
    refine ⟨popcount x, ?_⟩
    rw [mem_coverList]
    refine ⟨Implicant.ofValue v x, ?_, ?_⟩
    · unfold init_groups
      rw [init_fold_mem]
      right
      refine ⟨x, List.mem_range.mpr hxl, by omega, rfl, ?_, rfl⟩
      rw [List.length_replicate]
      have hpcb : popcount x ≤ v := by
        rw [← count_ones_initVecGo v x (by omega)]
        have h1 := List.count_le_length (some true : Slot) (initVecGo v x)
        rw [initVecGo_length] at h1
        exact h1
      omega
    · simp [Implicant.ofValue, mintermFinset]

/-! #### Pruning preserves coverage -/

theorem pruneScan_cover :
    ∀ (ps : List Implicant) (requ : Finset Nat),
      (∀ x ∈ requ, x ∈ coverList ps) →
      ∀ x ∈ requ, x ∈ coverList (pruneScan ps requ) := by
  intro ps
  induction ps with
  | nil =>
    intro requ hsub x hx
    simpa [pruneScan] using hsub x hx
  | cons p rest ih =>
    intro requ hsub x hx
    by_cases hp : (mintermFinset p ∩ requ).Nonempty
    · rw [show pruneScan (p :: rest) requ
          = p :: pruneScan rest (requ \ mintermFinset p) by simp [pruneScan, hp]]
      by_cases hxp : x ∈ mintermFinset p
      · rw [coverList_cons]
        exact Finset.mem_union_left _ hxp
      · rw [coverList_cons]
        apply Finset.mem_union_right
        have hsub2 : ∀ y ∈ requ \ mintermFinset p, y ∈ coverList rest := by
          intro y hy
          obtain ⟨hy1, hy2⟩ := Finset.mem_sdiff.mp hy
          have hyc := hsub y hy1
          rw [coverList_cons] at hyc
          rcases Finset.mem_union.mp hyc with h | h
          · exact absurd h hy2
          · exact h
        exact ih (requ \ mintermFinset p) hsub2 x (Finset.mem_sdiff.mpr ⟨hx, hxp⟩)
    · rw [show pruneScan (p :: rest) requ = pruneScan rest requ by
        simp [pruneScan, hp]]
      have hsub2 : ∀ y ∈ requ, y ∈ coverList rest := by
        intro y hy
        have hyc := hsub y hy
        rw [coverList_cons] at hyc
        rcases Finset.mem_union.mp hyc with h | h
        · exact absurd (Finset.nonempty_of_ne_empty (Finset.ne_empty_of_mem
            (Finset.mem_inter.mpr ⟨h, hy⟩))) hp
        · exact h
      exact ih requ hsub2 x hx

theorem drop_unrequired_eq (ps : List Implicant) (requ : Finset Nat) :
    drop_unrequired ps requ = pruneScan ps requ := by
  unfold drop_unrequired
  simpa using dropLoopF_eq ps.length ps requ 0 (by omega)

/-! #### Claim C1 -/

/-- C1: for every variable count and every 0/1 truth vector of length
`2 ^ v`, the disjunction of the conjunctions of the primes surviving
minimization evaluates to true at exactly the assignments whose truth-vector
entry is 1. -/
theorem claim_C1 (v : Nat) (vec : List Nat)
    (hlen : vec.length = 2 ^ v) (hbit : ∀ x ∈ vec, x = 0 ∨ x = 1)
    (m : Nat) (hm : m < 2 ^ v) :
    (((dnfPrimes v vec).any fun p => evalVec p.vec m) = true ↔
      vec.getD m 0 = 1) := by
  have hInv := init_Inv v vec hlen hbit
  obtain ⟨g1, g2, _, _, _⟩ := merge_loop_spec v (requSet vec) (v + 1) 0
    (init_groups v vec) [] hInv (by omega) (by omega)
  have hdnf : dnfPrimes v vec
      = pruneScan (merge_loop (v + 1) (init_groups v vec, [])).2
          (requSet vec) := by
    rw [show dnfPrimes v vec = drop_unrequired
        (merge_loop (v + 1) (init_groups v vec, [])).2 (requSet vec) from rfl,
      drop_unrequired_eq]
  rw [hdnf]
  constructor
  · intro hany
    obtain ⟨p, hp, hev⟩ := List.any_eq_true.mp hany
    have hp2 : p ∈ (merge_loop (v + 1) (init_groups v vec, [])).2 :=
      (pruneScan_sublist _ _).subset hp
    have hg := g1 p hp2
    have hmm : m ∈ mintermFinset p := (hg.sem m hm).mp hev
    exact ((mem_requSet vec m).mp (hg.sub hmm)).2
  · intro h1
    have hmem : m ∈ requSet vec :=
      (mem_requSet vec m).mpr ⟨by omega, h1⟩
    have hcov := pruneScan_cover
      (merge_loop (v + 1) (init_groups v vec, [])).2 (requSet vec) g2 m hmem
    obtain ⟨p, hp, hmp⟩ := (mem_coverList m _).mp hcov
    have hp2 : p ∈ (merge_loop (v + 1) (init_groups v vec, [])).2 :=
      (pruneScan_sublist _ _).subset hp
    have hg := g1 p hp2
    exact List.any_eq_true.mpr ⟨p, hp, (hg.sem m hm).mpr hmp⟩

/-- C1 witness input: `v = 2`, truth vector `[0, 1, 1, 1]`, assignment 3. -/
theorem claim_C1_witness :
    ([0, 1, 1, 1] : List Nat).length = 2 ^ 2 ∧
    (∀ x ∈ ([0, 1, 1, 1] : List Nat), x = 0 ∨ x = 1) ∧ (3 : Nat) < 2 ^ 2 ∧
    (((dnfPrimes 2 [0, 1, 1, 1]).any fun p => evalVec p.vec 3) = true ↔
      ([0, 1, 1, 1] : List Nat).getD 3 0 = 1) :=
  ⟨by decide, by decide, by decide,
    claim_C1 2 [0, 1, 1, 1] (by decide) (by decide) 3 (by decide)⟩

/-! #### Claim C7 -/

/-- C7: on valid input the merge loop terminates at a fixpoint: the result is
the same for every fuel of at least `v + 1` rounds (the loop stops at its
first round without merges, which exists), the total number of rounds
performed — the merge-producing rounds plus the final round with zero merges
— is at most `v + 1`, so at most `v` rounds produce merges, and one further
`merge_step` on the final state produces no merges. -/
theorem claim_C7 (v : Nat) (vec : List Nat)
    (hlen : vec.length = 2 ^ v) (hbit : ∀ x ∈ vec, x = 0 ∨ x = 1) :
    (∀ fuel, v + 1 ≤ fuel →
      merge_loop fuel (init_groups v vec, [])
        = merge_loop (v + 1) (init_groups v vec, []) ∧
      merge_rounds fuel (init_groups v vec, [])
        = merge_rounds (v + 1) (init_groups v vec, [])) ∧
    merge_rounds (v + 1) (init_groups v vec, []) ≤ v + 1 ∧
    (merge_step (merge_loop (v + 1) (init_groups v vec, [])).1
        (merge_loop (v + 1) (init_groups v vec, [])).2).2.2 = false := by
  have hInv := init_Inv v vec hlen hbit
  obtain ⟨_, _, r3, r4, r5⟩ := merge_loop_spec v (requSet vec) (v + 1) 0
    (init_groups v vec) [] hInv (by omega) (by omega)
  refine ⟨?_, ?_, ?_⟩
  · intro fuel hf
    exact r3 fuel (by omega)
  · simpa using r4
  · exact merge_step_of_empty _ _ r5

/-- C7 witness input: `v = 1`, truth vector `[1, 1]` (one merging round plus
the final empty round). -/
theorem claim_C7_witness :
    ([1, 1] : List Nat).length = 2 ^ 1 ∧
    (∀ x ∈ ([1, 1] : List Nat), x = 0 ∨ x = 1) ∧
    ((∀ fuel, 1 + 1 ≤ fuel →
      merge_loop fuel (init_groups 1 [1, 1], [])
        = merge_loop (1 + 1) (init_groups 1 [1, 1], []) ∧
      merge_rounds fuel (init_groups 1 [1, 1], [])
        = merge_rounds (1 + 1) (init_groups 1 [1, 1], [])) ∧
    merge_rounds (1 + 1) (init_groups 1 [1, 1], []) ≤ 1 + 1 ∧
    (merge_step (merge_loop (1 + 1) (init_groups 1 [1, 1], [])).1
        (merge_loop (1 + 1) (init_groups 1 [1, 1], [])).2).2.2 = false) :=
  ⟨by decide, by decide, claim_C7 1 [1, 1] (by decide) (by decide)⟩

/-! ### Parser (parse.py) -/

/-- Node kinds used by the parser (the `NodeType` enumeration imported from
the external `node` module; the spec's data model §3 lists exactly these). -/
inductive NodeType where
  | CONSTANT
  | VARIABLE
  | SUM
  | PRODUCT
  | POWER
  | NEGATION
  | CONJUNCTION
  | EXCL_DISJUNCTION
  | INCL_DISJUNCTION
  deriving Repr, DecidableEq

/-- Modelled from the spec: the `Node` class lives in the external `node`
module, which is not among the given sources.  Per the spec's data model (§3)
a node carries its kind, the modulus and reduce-constants flag for later
passes, an ordered child list, an integer payload for CONSTANT, and a name
for VARIABLE; unused payloads default to `0` and `""`. -/
inductive Node where
  | mk (type : NodeType) (modulus : Nat) (modRed : Bool) (children : List Node)
      (constant : Int) (vname : String)
  deriving Repr

def Node.type : Node → NodeType
  | .mk t _ _ _ _ _ => t

def Node.modulus : Node → Nat
  | .mk _ m _ _ _ _ => m

def Node.modRed : Node → Bool
  | .mk _ _ r _ _ _ => r

def Node.children : Node → List Node
  | .mk _ _ _ cs _ _ => cs

def Node.constant : Node → Int
  | .mk _ _ _ _ v _ => v

def Node.vname : Node → String
  | .mk _ _ _ _ _ n => n

def Node.withChildren : Node → List Node → Node
  | .mk t m r _ v n, cs => .mk t m r cs v n

def Node.withConstant : Node → Int → Node
  | .mk t m r cs _ n, v => .mk t m r cs v n

def Node.withVname : Node → String → Node
  | .mk t m r cs v _, n => .mk t m r cs v n

def Node.appendChild (n : Node) (c : Node) : Node :=
  n.withChildren (n.children ++ [c])

/-- Modelled from the spec: `Node.refine` is the downstream AST refinement
pass of the external `node` module, explicitly out of scope (§1); modelled as
the identity transformation.  No verified claim depends on its behaviour. -/
def Node.refine (n : Node) : Node := n

/-- Modelled from the spec: `Node.mark_linear` is the downstream
linear-subexpression marking pass of the external `node` module, out of scope
(§1); modelled as the identity transformation. -/
def Node.mark_linear (n : Node) : Node := n

/-- Embedding of the `Parser` instance state (parse.py lines 10-15): the
expression, the stored modulus and reduce flag, the cursor, and the error
message. -/
structure PState where
  expr : List Char
  modulus : Nat
  modRed : Bool
  idx : Nat
  error : String
  deriving Repr, DecidableEq

/-- Embedding of `Parser.__init__` (parse.py lines 10-15).  Note that the
source assigns the literal `32` to `self.__modulus`, ignoring the `modulus`
argument it receives. -/
def Parser.init (expr : String) (modulus : Nat) (modRed : Bool) : PState :=
  { expr := expr.data, modulus := 32, modRed := modRed, idx := 0, error := "" }

/-- Embedding of `Parser.__peek` (parse.py lines 428-431): `none` models the
empty string returned at the end of the input. -/
def PState.peek (s : PState) : Option Char := s.expr[s.idx]?

/-- Embedding of `Parser.__peek_next` (parse.py lines 492-495). -/
def PState.peek_next (s : PState) : Option Char := s.expr[s.idx + 1]?

/-- String form of `__peek` used in error messages (the empty string at the
end of input). -/
def peekStr (s : PState) : String :=
  match s.peek with
  | some c => String.singleton c
  | none => ""

def PState.has_space (s : PState) : Bool := s.peek == some ' '

/-- Embedding of `Parser.__skip_space` (parse.py lines 423-424). -/
def PState.skip_space (s : PState) : PState := { s with idx := s.idx + 1 }

/-- The `while self.__has_space(): self.__skip_space()` loops.  Each
iteration advances the cursor, so `expr.length + 1` iterations always cover
the loop (once the cursor passes the end, `has_space` is false). -/
def skipSpacesGo : Nat → PState → PState
  | 0, s => s
  | f + 1, s => if s.has_space then skipSpacesGo f s.skip_space else s

def PState.skipSpaces (s : PState) : PState := skipSpacesGo (s.expr.length + 1) s

/-- Embedding of `Parser.__get` (parse.py lines 412-420); the consumed
character itself is never used by callers, only the state advance. -/
def PState.pget (s : PState) (skipSpace : Bool) : PState :=
  let s1 : PState := { s with idx := s.idx + 1 }
  if skipSpace then s1.skipSpaces else s1

def isDecimalDigitChar (c : Char) : Bool :=
  decide ('0' ≤ c) && decide (c ≤ '9')

def isLetterChar (c : Char) : Bool :=
  (decide ('a' ≤ c) && decide (c ≤ 'z')) || (decide ('A' ≤ c) && decide (c ≤ 'Z'))

def isHexLetterChar (c : Char) : Bool :=
  (decide ('a' ≤ c) && decide (c ≤ 'f')) || (decide ('A' ≤ c) && decide (c ≤ 'F'))

def PState.has_bitwise_negated_expression (s : PState) : Bool := s.peek == some '~'

def PState.has_negative_expression (s : PState) : Bool := s.peek == some '-'

def PState.has_multiplicator (s : PState) : Bool :=
  s.peek == some '*' && !(s.peek_next == some '*')

def PState.has_power (s : PState) : Bool :=
  s.peek == some '*' && s.peek_next == some '*'

def PState.has_lshift (s : PState) : Bool :=
  s.peek == some '<' && s.peek_next == some '<'

def PState.has_binary_constant (s : PState) : Bool :=
  s.peek == some '0' && s.peek_next == some 'b'

def PState.has_hex_constant (s : PState) : Bool :=
  s.peek == some '0' && s.peek_next == some 'x'

def PState.has_decimal_digit (s : PState) : Bool :=
  match s.peek with
  | some c => isDecimalDigitChar c
  | none => false

def PState.has_hex_digit (s : PState) : Bool :=
  s.has_decimal_digit ||
    (match s.peek with
     | some c => isHexLetterChar c
     | none => false)

def PState.has_letter (s : PState) : Bool :=
  match s.peek with
  | some c => isLetterChar c
  | none => false

def PState.has_variable (s : PState) : Bool := s.has_letter

/-- Embedding of `Parser.__new_node` (parse.py lines 34-35). -/
def newNode (s : PState) (t : NodeType) : Node :=
  Node.mk t s.modulus s.modRed [] 0 ""

/-- Embedding of `Parser.__multiply_by_minus_one` (parse.py lines 234-254):
a CONSTANT is negated in place; a PRODUCT whose first child is a CONSTANT has
that constant multiplied by -1 in place; any other PRODUCT has a literal -1
prepended; otherwise a fresh PRODUCT with children `[-1, node]` is built.
(A PRODUCT with no children would raise an IndexError in the source; the
parser never constructs one, and the embedding prepends -1 there.) -/
def multiplyByMinusOne (s : PState) (node : Node) : Node :=
  if node.type = NodeType.CONSTANT then node.withConstant (-node.constant)
  else if node.type = NodeType.PRODUCT then
    match node.children with
    | c0 :: rest =>
      if c0.type = NodeType.CONSTANT then
        node.withChildren (c0.withConstant (c0.constant * (-1)) :: rest)
      else
        node.withChildren ((newNode s NodeType.CONSTANT).withConstant (-1)
          :: c0 :: rest)
    | [] =>
      node.withChildren [(newNode s NodeType.CONSTANT).withConstant (-1)]
  else
    (newNode s NodeType.PRODUCT).withChildren
      [(newNode s NodeType.CONSTANT).withConstant (-1), node]

/-- Trailing-space stripping of a captured token (Python `str.rstrip`,
which the source applies to slices that can only carry trailing spaces). -/
def rstripChars (l : List Char) : List Char :=
  (l.reverse.dropWhile (fun c => c == ' ')).reverse

/-- Python slice `expr[start:idx]`. -/
def PState.slice (s : PState) (start stop : Nat) : List Char :=
  (s.expr.drop start).take (stop - start)

/-- Numeric value of one digit in the bases the parser accepts. -/
def hexVal (c : Char) : Nat :=
  if isDecimalDigitChar c then c.toNat - '0'.toNat
  else if isHexLetterChar c then
    (if decide ('a' ≤ c) && decide (c ≤ 'f') then c.toNat - 'a'.toNat + 10
     else c.toNat - 'A'.toNat + 10)
  else 0

/-- Embedding of `int(string, base)` on the digit runs the parser captures. -/
def natOfDigits (base : Nat) (l : List Char) : Nat :=
  l.foldl (fun acc c => acc * base + hexVal c) 0

/-- Embedding of `Parser.__get_constant` (parse.py lines 407-408). -/
def PState.get_constant (s : PState) (start : Nat) (base : Nat) : Int :=
  natOfDigits base (rstripChars (s.slice start s.idx))

/-- The identifier-run loop inside `__parse_variable` (parse.py line 310);
every iteration advances the cursor, so `expr.length + 1` iterations always
reach the loop exit. -/
def varNameLoop : Nat → PState → PState
  | 0, s => s
  | f + 1, s =>
    if s.has_decimal_digit || s.has_letter || (s.peek == some '_') then
      varNameLoop f (s.pget false)
    else s

/-- Decimal-digit run loop (parse.py lines 316-317 and 395-396). -/
def decDigitsLoop : Nat → PState → PState
  | 0, s => s
  | f + 1, s =>
    if s.has_decimal_digit then decDigitsLoop f (s.pget false) else s

/-- Binary-digit run loop (parse.py lines 355-356). -/
def binDigitsLoop : Nat → PState → PState
  | 0, s => s
  | f + 1, s =>
    if s.peek == some '0' || s.peek == some '1' then
      binDigitsLoop f (s.pget false)
    else s

/-- Hex-digit run loop (parse.py lines 377-378). -/
def hexDigitsLoop : Nat → PState → PState
  | 0, s => s
  | f + 1, s =>
    if s.has_hex_digit then hexDigitsLoop f (s.pget false) else s

/-- Embedding of `Parser.__parse_variable` (parse.py lines 305-330).  A
bracketed index missing its closing `]` returns `None` without recording any
error message (line 322). -/
def parse_variable (s : PState) : Option Node × PState :=
  let start := s.idx
  let s1 := s.pget false
  let s2 := varNameLoop (s1.expr.length + 1) s1
  if s2.peek == some '[' then
    let s3 := s2.pget false
    let s4 := decDigitsLoop (s3.expr.length + 1) s3
    if s4.peek == some ']' then
      let s5 := s4.pget true
      (some ((newNode s5 NodeType.VARIABLE).withVname
        (String.mk (rstripChars (s5.slice start s5.idx)))), s5)
    else (none, s4)
  else
    let s5 := s2.skipSpaces
    (some ((newNode s5 NodeType.VARIABLE).withVname
      (String.mk (rstripChars (s5.slice start s5.idx)))), s5)

/-- Embedding of `Parser.__parse_binary_constant` (parse.py lines 345-363). -/
def parse_binary_constant (s : PState) : Option Node × PState :=
  let s1 := (s.pget false).pget false
  if !(s1.peek == some '0' || s1.peek == some '1') then
    (none, { s1 with error := "Invalid binary digit near to " ++ peekStr s1 })
  else
    let start := s1.idx
    let s2 := binDigitsLoop (s1.expr.length + 1) s1
    let s3 := s2.skipSpaces
    (some ((newNode s3 NodeType.CONSTANT).withConstant
      (s3.get_constant start 2)), s3)

/-- Embedding of `Parser.__parse_hex_constant` (parse.py lines 367-385). -/
def parse_hex_constant (s : PState) : Option Node × PState :=
  let s1 := (s.pget false).pget false
  if !s1.has_hex_digit then
    (none, { s1 with error := "Invalid hex digit near to " ++ peekStr s1 })
  else
    let start := s1.idx
    let s2 := hexDigitsLoop (s1.expr.length + 1) s1
    let s3 := s2.skipSpaces
    (some ((newNode s3 NodeType.CONSTANT).withConstant
      (s3.get_constant start 16)), s3)

/-- Embedding of `Parser.__parse_decimal_constant` (parse.py lines 389-403). -/
def parse_decimal_constant (s : PState) : Option Node × PState :=
  if !s.has_decimal_digit then
    (none, { s with error := "Expecting constant at " ++ peekStr s
      ++ ", but no digit around." })
  else
    let start := s.idx
    let s2 := decDigitsLoop (s.expr.length + 1) s
    let s3 := s2.skipSpaces
    (some ((newNode s3 NodeType.CONSTANT).withConstant
      (s3.get_constant start 10)), s3)

/-- Embedding of `Parser.__parse_constant` (parse.py lines 334-341). -/
def parse_constant (s : PState) : Option Node × PState :=
  if s.has_binary_constant then parse_binary_constant s
  else if s.has_hex_constant then parse_hex_constant s
  else parse_decimal_constant s

/-! The mutually recursive grammar rules of the parser (parse.py lines
39-302), with one structural fuel argument decremented at every call of a
grammar rule and every loop iteration; the wrapper `parse_expression` passes
fuel that is shown ample for the input length (each group of at most 16
consecutive fuel decrements consumes at least one input character or ends the
parse). -/

mutual

/-- Embedding of `Parser.__parse_inclusive_disjunction` (parse.py 39-58). -/
def parse_inclusive_disjunction : Nat → PState → Option Node × PState
  | 0, s => (none, s)
  | f + 1, s =>
    match parse_exclusive_disjunction f s with
    | (none, s1) => (none, s1)
    | (some child, s1) =>
      if s1.peek == some '|' then
        incl_loop f ((newNode s1 NodeType.INCL_DISJUNCTION).appendChild child) s1
      else (some child, s1)

/-- The `while self.__peek() == '|'` loop (parse.py 50-56). -/
def incl_loop : Nat → Node → PState → Option Node × PState
  | 0, _, s => (none, s)
  | f + 1, node, s =>
    if s.peek == some '|' then
      match parse_exclusive_disjunction f (s.pget true) with
      | (none, s2) => (none, s2)
      | (some child, s2) => incl_loop f (node.appendChild child) s2
    else (some node, s)

/-- Embedding of `Parser.__parse_exclusive_disjunction` (parse.py 62-81). -/
def parse_exclusive_disjunction : Nat → PState → Option Node × PState
  | 0, s => (none, s)
  | f + 1, s =>
    match parse_conjunction f s with
    | (none, s1) => (none, s1)
    | (some child, s1) =>
      if s1.peek == some '^' then
        excl_loop f ((newNode s1 NodeType.EXCL_DISJUNCTION).appendChild child) s1
      else (some child, s1)

/-- The `while self.__peek() == '^'` loop (parse.py 73-79). -/
def excl_loop : Nat → Node → PState → Option Node × PState
  | 0, _, s => (none, s)
  | f + 1, node, s =>
    if s.peek == some '^' then
      match parse_conjunction f (s.pget true) with
      | (none, s2) => (none, s2)
      | (some child, s2) => excl_loop f (node.appendChild child) s2
    else (some node, s)

/-- Embedding of `Parser.__parse_conjunction` (parse.py 85-104). -/
def parse_conjunction : Nat → PState → Option Node × PState
  | 0, s => (none, s)
  | f + 1, s =>
    match parse_shift f s with
    | (none, s1) => (none, s1)
    | (some child, s1) =>
      if s1.peek == some '&' then
        conj_loop f ((newNode s1 NodeType.CONJUNCTION).appendChild child) s1
      else (some child, s1)

/-- The `while self.__peek() == '&'` loop (parse.py 96-102). -/
def conj_loop : Nat → Node → PState → Option Node × PState
  | 0, _, s => (none, s)
  | f + 1, node, s =>
    if s.peek == some '&' then
      match parse_shift f (s.pget true) with
      | (none, s2) => (none, s2)
      | (some child, s2) => conj_loop f (node.appendChild child) s2
    else (some node, s)

/-- Embedding of `Parser.__parse_shift` (parse.py 106-141): `a << b` is built
as `PRODUCT(a, POWER(2, b))`, and a further unparenthesized `<<` is a syntax
error. -/
def parse_shift : Nat → PState → Option Node × PState
  | 0, s => (none, s)
  | f + 1, s =>
    match parse_sum f s with
    | (none, s1) => (none, s1)
    | (some base, s1) =>
      if !s1.has_lshift then (some base, s1)
      else
        let prod := (newNode s1 NodeType.PRODUCT).appendChild base
        let s2 := (s1.pget true).pget true
        match parse_sum f s2 with
        | (none, s3) => (none, s3)
        | (some op, s3) =>
          let power := (((newNode s3 NodeType.POWER).appendChild
            ((newNode s3 NodeType.CONSTANT).withConstant 2))).appendChild op
          let prod2 := prod.appendChild power
          if s3.has_lshift then
            (none, { s3 with error :=
              "Disallowed nested lshift operator near " ++ peekStr s3 })
          else (some prod2, s3)

/-- Embedding of `Parser.__parse_sum` (parse.py 145-168): a subtrahend is
appended after `__multiply_by_minus_one`. -/
def parse_sum : Nat → PState → Option Node × PState
  | 0, s => (none, s)
  | f + 1, s =>
    match parse_product f s with
    | (none, s1) => (none, s1)
    | (some child, s1) =>
      if s1.peek == some '+' || s1.peek == some '-' then
        sum_loop f ((newNode s1 NodeType.SUM).appendChild child) s1
      else (some child, s1)

/-- The sum loop (parse.py 156-166). -/
def sum_loop : Nat → Node → PState → Option Node × PState
  | 0, _, s => (none, s)
  | f + 1, node, s =>
    if s.peek == some '+' || s.peek == some '-' then
      let negative := s.peek == some '-'
      match parse_product f (s.pget true) with
      | (none, s2) => (none, s2)
      | (some child, s2) =>
        if negative then
          sum_loop f (node.appendChild (multiplyByMinusOne s2 child)) s2
        else sum_loop f (node.appendChild child) s2
    else (some node, s)

/-- Embedding of `Parser.__parse_product` (parse.py 172-191). -/
def parse_product : Nat → PState → Option Node × PState
  | 0, s => (none, s)
  | f + 1, s =>
    match parse_factor f s with
    | (none, s1) => (none, s1)
    | (some child, s1) =>
      if s1.has_multiplicator then
        prod_loop f ((newNode s1 NodeType.PRODUCT).appendChild child) s1
      else (some child, s1)

/-- The product loop (parse.py 183-189). -/
def prod_loop : Nat → Node → PState → Option Node × PState
  | 0, _, s => (none, s)
  | f + 1, node, s =>
    if s.has_multiplicator then
      match parse_factor f (s.pget true) with
      | (none, s2) => (none, s2)
      | (some child, s2) => prod_loop f (node.appendChild child) s2
    else (some node, s)

/-- Embedding of `Parser.__parse_factor` (parse.py 196-203). -/
def parse_factor : Nat → PState → Option Node × PState
  | 0, s => (none, s)
  | f + 1, s =>
    if s.has_bitwise_negated_expression then
      parse_bitwise_negated_expression f s
    else if s.has_negative_expression then
      parse_negative_expression f s
    else parse_power f s

/-- Embedding of `Parser.__parse_bitwise_negated_expression`
(parse.py 207-217). -/
def parse_bitwise_negated_expression : Nat → PState → Option Node × PState
  | 0, s => (none, s)
  | f + 1, s =>
    let s1 := s.pget true
    let node := newNode s1 NodeType.NEGATION
    match parse_factor f s1 with
    | (none, s2) => (none, s2)
    | (some child, s2) => (some (node.withChildren [child]), s2)

/-- Embedding of `Parser.__parse_negative_expression` (parse.py 222-231). -/
def parse_negative_expression : Nat → PState → Option Node × PState
  | 0, s => (none, s)
  | f + 1, s =>
    let s1 := s.pget true
    match parse_factor f s1 with
    | (none, s2) => (none, s2)
    | (some node, s2) => (some (multiplyByMinusOne s2 node), s2)

/-- Embedding of `Parser.__parse_power` (parse.py 257-283): a further
unparenthesized `**` after the exponent is a syntax error. -/
def parse_power : Nat → PState → Option Node × PState
  | 0, s => (none, s)
  | f + 1, s =>
    match parse_terminal f s with
    | (none, s1) => (none, s1)
    | (some base, s1) =>
      if !s1.has_power then (some base, s1)
      else
        let node := (newNode s1 NodeType.POWER).appendChild base
        let s2 := (s1.pget true).pget true
        match parse_terminal f s2 with
        | (none, s3) => (none, s3)
        | (some exp, s3) =>
          let node2 := node.appendChild exp
          if s3.has_power then
            (none, { s3 with error :=
              "Disallowed nested power operator near " ++ peekStr s3 })
          else (some node2, s3)

/-- Embedding of `Parser.__parse_terminal` (parse.py 286-302). -/
def parse_terminal : Nat → PState → Option Node × PState
  | 0, s => (none, s)
  | f + 1, s =>
    if s.peek == some '(' then
      match parse_inclusive_disjunction f (s.pget true) with
      | (none, s1) => (none, s1)
      | (some node, s1) =>
        if !(s1.peek == some ')') then
          (none, { s1 with error :=
            "Missing closing parentheses near to " ++ peekStr s1 })
        else (some node, s1.pget true)
    else if s.has_variable then parse_variable s
    else parse_constant s

end

/-- Fuel passed by `parse_expression`: between two consecutive consumed input
characters (or before the final return) at most 16 fuel units are spent, so
this bound never runs out on any input. -/
def parseFuel (expr : List Char) : Nat := 16 * (expr.length + 2)

/-- Embedding of `Parser.parse_expression` (parse.py lines 19-31): a single
leading space is skipped (the source uses `if`, not `while`), then the
top-level rule runs, trailing spaces are skipped, and unconsumed input is a
syntax error. -/
def parse_expression (s : PState) : Option Node × PState :=
  let s0 := if s.has_space then s.skip_space else s
  match parse_inclusive_disjunction (parseFuel s.expr) s0 with
  | (none, s1) => (none, s1)
  | (some root, s1) =>
    let s2 := s1.skipSpaces
    if s2.idx != s2.expr.length then
      (none, { s2 with error := "Finished near to " ++ peekStr s2
        ++ " before everything was parsed" })
    else (some root, s2)

/-- Embedding of the module-level `parse` (parse.py lines 499-510):
`sys.exit` is modelled by `Except.error`; the external `refine` and
`mark_linear` passes are the spec-modelled identities above. -/
def parse (expr : String) (bitCount : Nat) (reduceConstants : Bool)
    (refine : Bool) (marklinear : Bool) : Except String (Option Node) :=
  let st := Parser.init expr (2 ^ bitCount) reduceConstants
  let r := parse_expression st
  let root := r.1
  let root1 := if root.isSome && refine then root.map Node.refine else root
  if root1.isSome && marklinear then
    if !refine then
      Except.error "Error: Refine before marking linear subexpressions!"
    else Except.ok (root1.map Node.mark_linear)
  else Except.ok root1

/-! #### Claim C3 -/

/-- C3: the claim says every node of a returned tree carries the modulus
`2 ^ bitWidth`.  The code is wrong: `Parser.__init__` assigns the literal
`32` to the stored modulus, ignoring the `2 ** bitCount` argument that
`parse` passes, so for `bitCount = 8` the parsed CONSTANT carries modulus 32
rather than `2 ^ 8 = 256`.  The claim's second half does hold in the same
run: the literal `300` is stored raw, not reduced modulo the bit width. -/
theorem claim_C3 :
    parse "1" 8 true false false
      = Except.ok (some (Node.mk NodeType.CONSTANT 32 true [] 1 "")) ∧
    (2 : Nat) ^ 8 = 256 ∧ (32 : Nat) ≠ 256 ∧
    parse "300" 8 true false false
      = Except.ok (some (Node.mk NodeType.CONSTANT 32 true [] 300 "")) :=
  ⟨rfl, rfl, by decide, rfl⟩

/-! #### Claim C4 -/

/-- C4 counterexample: with `markLinear` requested and `refine` not, `parse`
does not fail independently of the input text: an input that fails to parse
returns no tree and no configuration error, while an input that parses exits
with the configuration error — and only after the full parse has run. -/
theorem claim_C4_counterexample :
    parse "(" 8 true false true = Except.ok none ∧
    parse "a" 8 true false true
      = Except.error "Error: Refine before marking linear subexpressions!" :=
  ⟨rfl, rfl⟩

/-- C4 (amended): requesting `markLinear` without `refine` exits with the
fatal configuration error exactly when the input text parses successfully;
when parsing fails, `parse` returns no tree and raises no configuration
error.  The check runs after parsing, not before. -/
theorem claim_C4 (expr : String) (bitCount : Nat) (reduceConstants : Bool) :
    (parse expr bitCount reduceConstants false true
        = Except.error "Error: Refine before marking linear subexpressions!"
      ↔ ∃ t, parse expr bitCount reduceConstants false false
          = Except.ok (some t)) ∧
    (parse expr bitCount reduceConstants false true = Except.ok none
      ↔ parse expr bitCount reduceConstants false false = Except.ok none) := by
  unfold parse
  rcases h : (parse_expression
      (Parser.init expr (2 ^ bitCount) reduceConstants)).1 with _ | t
  · simp [h]
  · simp [h]

/-! #### Claim C5 -/

/-- C5: `a << b` parses to `PRODUCT(a, POWER(2, b))`, `a ** b` parses to a
POWER node, and an unparenthesized second occurrence of either operator
(`a<<b<<c`, `a**b**c`) is a syntax error rather than being silently
associated. -/
theorem claim_C5 :
    (parse_expression (Parser.init "a<<b" (2 ^ 8) true)).1
      = some (Node.mk NodeType.PRODUCT 32 true
          [Node.mk NodeType.VARIABLE 32 true [] 0 "a",
           Node.mk NodeType.POWER 32 true
             [Node.mk NodeType.CONSTANT 32 true [] 2 "",
              Node.mk NodeType.VARIABLE 32 true [] 0 "b"] 0 ""] 0 "") ∧
    (parse_expression (Parser.init "a**b" (2 ^ 8) true)).1
      = some (Node.mk NodeType.POWER 32 true
          [Node.mk NodeType.VARIABLE 32 true [] 0 "a",
           Node.mk NodeType.VARIABLE 32 true [] 0 "b"] 0 "") ∧
    (parse_expression (Parser.init "a<<b<<c" (2 ^ 8) true)).1 = none ∧
    (parse_expression (Parser.init "a<<b<<c" (2 ^ 8) true)).2.error
      = "Disallowed nested lshift operator near <" ∧
    (parse_expression (Parser.init "a**b**c" (2 ^ 8) true)).1 = none ∧
    (parse_expression (Parser.init "a**b**c" (2 ^ 8) true)).2.error
      = "Disallowed nested power operator near *" :=
  ⟨rfl, rfl, rfl, rfl, rfl, rfl⟩

/-! #### Claim C6 -/

/-- C6: unary minus and binary subtraction normalize through
`__multiply_by_minus_one`: a CONSTANT is negated in place, a PRODUCT whose
first child is a CONSTANT has that constant multiplied by -1 in place, any
other node gets wrapped (a PRODUCT by prepending a literal -1, anything else
by a fresh PRODUCT `[-1, node]`); and concretely `-5` parses to a single
CONSTANT `-5` with no wrapper while `-(a*b)` parses to `PRODUCT(-1, a, b)`
with no nested product. -/
theorem claim_C6 (s : PState) (node : Node) :
    (node.type = NodeType.CONSTANT →
      multiplyByMinusOne s node = node.withConstant (-node.constant)) ∧
    (node.type = NodeType.PRODUCT →
      ∀ c0 rest, node.children = c0 :: rest →
        (c0.type = NodeType.CONSTANT →
          multiplyByMinusOne s node
            = node.withChildren (c0.withConstant (c0.constant * (-1)) :: rest)) ∧
        (c0.type ≠ NodeType.CONSTANT →
          multiplyByMinusOne s node = node.withChildren
            ((newNode s NodeType.CONSTANT).withConstant (-1) :: c0 :: rest))) ∧
    (node.type ≠ NodeType.CONSTANT → node.type ≠ NodeType.PRODUCT →
      multiplyByMinusOne s node = (newNode s NodeType.PRODUCT).withChildren
        [(newNode s NodeType.CONSTANT).withConstant (-1), node]) ∧
    ((parse_expression (Parser.init "-5" (2 ^ 8) true)).1
      = some (Node.mk NodeType.CONSTANT 32 true [] (-5) "")) ∧
    ((parse_expression (Parser.init "-(a*b)" (2 ^ 8) true)).1
      = some (Node.mk NodeType.PRODUCT 32 true
          [Node.mk NodeType.CONSTANT 32 true [] (-1) "",
           Node.mk NodeType.VARIABLE 32 true [] 0 "a",
           Node.mk NodeType.VARIABLE 32 true [] 0 "b"] 0 "")) := by
  refine ⟨?_, ?_, ?_, rfl, rfl⟩
  · intro ht
    unfold multiplyByMinusOne
    rw [if_pos ht]
  · intro ht c0 rest hcs
    constructor
    · intro hc0
      unfold multiplyByMinusOne
      rw [if_neg (by rw [ht]; intro hcon; cases hcon), if_pos ht, hcs]
      dsimp only
      rw [if_pos hc0]
    · intro hc0
      unfold multiplyByMinusOne
      rw [if_neg (by rw [ht]; intro hcon; cases hcon), if_pos ht, hcs]
      dsimp only
      rw [if_neg hc0]
  · intro h1 h2
    unfold multiplyByMinusOne
    rw [if_neg h1, if_neg h2]

/-- Concrete inputs exercising each branch of the C6 normalization. -/
def c6st : PState := Parser.init "" 256 true

/-- A CONSTANT operand for the C6 witness. -/
def c6const : Node := Node.mk NodeType.CONSTANT 32 true [] 5 ""

/-- A VARIABLE operand for the C6 witness. -/
def c6var : Node := Node.mk NodeType.VARIABLE 32 true [] 0 "a"

/-- A PRODUCT with a CONSTANT first child for the C6 witness. -/
def c6prodc : Node := Node.mk NodeType.PRODUCT 32 true [c6const, c6var] 0 ""

/-- A PRODUCT with a non-CONSTANT first child for the C6 witness. -/
def c6prodv : Node := Node.mk NodeType.PRODUCT 32 true [c6var, c6var] 0 ""

/-- C6 witness: each branch's hypotheses discharged at a concrete node. -/
theorem claim_C6_witness :
    multiplyByMinusOne c6st c6const = c6const.withConstant (-c6const.constant) ∧
    multiplyByMinusOne c6st c6prodc
      = c6prodc.withChildren
          (c6const.withConstant (c6const.constant * (-1)) :: [c6var]) ∧
    multiplyByMinusOne c6st c6prodv
      = c6prodv.withChildren
          ((newNode c6st NodeType.CONSTANT).withConstant (-1)
            :: c6var :: [c6var]) ∧
    multiplyByMinusOne c6st c6var
      = (newNode c6st NodeType.PRODUCT).withChildren
          [(newNode c6st NodeType.CONSTANT).withConstant (-1), c6var] :=
  ⟨(claim_C6 c6st c6const).1 rfl,
   ((claim_C6 c6st c6prodc).2.1 rfl c6const [c6var] rfl).1 rfl,
   ((claim_C6 c6st c6prodv).2.1 rfl c6var [c6var] rfl).2 (by decide),
   (claim_C6 c6st c6var).2.2.1 (by decide) (by decide)⟩

/-! #### Claim C9 -/

/-- C9 counterexample: a variable index missing its closing bracket makes
parsing fail with no error message recorded (parse.py line 322 returns `None`
without setting `self.__error`), refuting the claim that every parse failure
is reported as a syntax error carrying the offending character. -/
theorem claim_C9_counterexample :
    (parse_expression (Parser.init "x[" (2 ^ 8) true)).1 = none ∧
    (parse_expression (Parser.init "x[" (2 ^ 8) true)).2.error = "" :=
  ⟨rfl, rfl⟩

/-- C9 (amended): no failing parse returns a tree, and each failure mode the
claim lists records a syntax error naming the offending character —
unexpected character, unmatched parenthesis, invalid digit in a binary or hex
run, disallowed nested shift or power, and unconsumed trailing input — but a
variable index missing its closing `]` (see the counterexample) fails with no
recorded error. -/
theorem claim_C9 :
    ((parse_expression (Parser.init "$" (2 ^ 8) true)).1 = none ∧
      (parse_expression (Parser.init "$" (2 ^ 8) true)).2.error
        = "Expecting constant at $, but no digit around.") ∧
    ((parse_expression (Parser.init "(a" (2 ^ 8) true)).1 = none ∧
      (parse_expression (Parser.init "(a" (2 ^ 8) true)).2.error
        = "Missing closing parentheses near to ") ∧
    ((parse_expression (Parser.init "0b2" (2 ^ 8) true)).1 = none ∧
      (parse_expression (Parser.init "0b2" (2 ^ 8) true)).2.error
        = "Invalid binary digit near to 2") ∧
    ((parse_expression (Parser.init "0xg" (2 ^ 8) true)).1 = none ∧
      (parse_expression (Parser.init "0xg" (2 ^ 8) true)).2.error
        = "Invalid hex digit near to g") ∧
    ((parse_expression (Parser.init "a<<b<<c" (2 ^ 8) true)).1 = none ∧
      (parse_expression (Parser.init "a<<b<<c" (2 ^ 8) true)).2.error
        = "Disallowed nested lshift operator near <") ∧
    ((parse_expression (Parser.init "a**b**c" (2 ^ 8) true)).1 = none ∧
      (parse_expression (Parser.init "a**b**c" (2 ^ 8) true)).2.error
        = "Disallowed nested power operator near *") ∧
    ((parse_expression (Parser.init "a b" (2 ^ 8) true)).1 = none ∧
      (parse_expression (Parser.init "a b" (2 ^ 8) true)).2.error
        = "Finished near to b before everything was parsed") :=
  ⟨⟨rfl, rfl⟩, ⟨rfl, rfl⟩, ⟨rfl, rfl⟩, ⟨rfl, rfl⟩, ⟨rfl, rfl⟩, ⟨rfl, rfl⟩,
    ⟨rfl, rfl⟩⟩
